import Mathlib

/-!
Shallow embedding of `src/lxml/sax.py`: the SAX adapter between lxml
ElementTrees and SAX event streams.

* `ElementTreeContentHandler` (event stream → tree) is modelled as a state
  machine over `HState`, one transition per SAX event (`step`/`run`).
  Python exceptions are modelled by `Except`; since the Python handler
  mutates its state before some raises, the error value carries the state
  at the moment of the raise.
* `ElementTreeProducer` (tree → event stream) is modelled as a pure
  recursive function `emitNode` returning the emitted event list (or the
  error that aborts the walk).  The Python code interleaves event emission
  with the recursive walk; the pure model returns no partial output on
  error, which is observationally equal for every property stated here.
* Python strings are Lean `String`s; Python `None` becomes `none`, so
  optional strings are `Option String` and Python truthiness of an
  optional string is `oTruthy` (both `None` and `""` are falsy).
* Python dicts (insertion ordered, unique keys) are association lists:
  lookup is `dGet`, assignment is `dSet` (update in place, append if new).
* lxml tags are Clark-notation strings; `getNsTag` models `_getNsTag`
  (splitting at the first closing brace) and returns `none` where the
  Python helper raises (empty tag, or a brace-opened tag with no closing
  brace, which fails tuple unpacking in the caller).
-/

namespace LxmlSax

/-- Python dict lookup `m.get(k)` on an insertion-ordered association list. -/
def dGet {α β : Type} [DecidableEq α] (m : List (α × β)) (k : α) : Option β :=
  (m.find? (fun p => decide (p.1 = k))).map (·.2)

/-- Python dict assignment `m[k] = v`: update in place if the key exists,
append otherwise. -/
def dSet {α β : Type} [DecidableEq α] (m : List (α × β)) (k : α) (v : β) :
    List (α × β) :=
  if m.any (fun p => decide (p.1 = k)) then
    m.map (fun p => if p.1 = k then (k, v) else p)
  else m ++ [(k, v)]

/-- Python truthiness of an optional string: `None` and `""` are falsy. -/
def oTruthy : Option String → Bool
  | none => false
  | some s => !s.isEmpty

/-- Keys of an association list are pairwise distinct. -/
def nodupKeys {α β : Type} [DecidableEq α] : List (α × β) → Bool
  | [] => true
  | p :: rest => !(rest.any (fun q => decide (q.1 = p.1))) && nodupKeys rest

/-- Python code-point comparison `a < b` on character lists. -/
def strLtB : List Char → List Char → Bool
  | [], [] => false
  | [], _ :: _ => true
  | _ :: _, [] => false
  | a :: as, b :: bs =>
    if a.val < b.val then true
    else if b.val < a.val then false
    else strLtB as bs

/-- Python `a <= b` on strings, via code-point comparison. -/
def pyLe (a b : String) : Bool := !(strLtB b.data a.data)

/-- Python `str(k)` for a sort key that may be `None`. -/
def pyStr : Option String → String
  | none => "None"
  | some s => s

/-- Split a character list at the first closing brace. -/
def splitBrace : List Char → Option (List Char × List Char)
  | [] => none
  | c :: cs =>
    if c = '}' then some ([], cs)
    else (splitBrace cs).map (fun p => (c :: p.1, p.2))

/-- `_getNsTag(tag)`: `(None, tag)` for a plain tag, `(uri, localname)` for a
Clark-notation tag.  `none` models the Python exceptions: `tag[0]` on an
empty string (IndexError) and unpacking a 1-tuple when a brace-opened tag
has no closing brace (ValueError). -/
def getNsTag (tag : String) : Option (Option String × String) :=
  match tag.data with
  | [] => none
  | c :: cs =>
    if c = '{' then
      (splitBrace cs).map (fun p => (some (String.mk p.1), String.mk p.2))
    else some (none, tag)

/-- Clark notation built from a URI and a local name. -/
def clark (u l : String) : String := String.mk ('{' :: (u.data ++ '}' :: l.data))

/-- Tree nodes, as built and traversed by the adapter.  An element stores its
Clark-notation tag, its attribute dict (Clark-notation names), `text`,
`tail`, its namespace map (prefix → URI; `none` is the default prefix,
and the map holds every binding visible at the element, as lxml `nsmap`
does), its recorded prefix (`element.prefix`), and its ordered children.
Comments and processing instructions carry text and tail only. -/
inductive Node where
  | element (tag : String) (attrib : List (String × String))
      (text tail : Option String) (nsmap : List (Option String × String))
      (epfx : Option String) (children : List Node)
  | comment (text tail : Option String)
  | pi (target : String) (text tail : Option String)

/-- A document: the root element plus the root-level sibling nodes that
precede and follow it, in document order. -/
structure Doc where
  leading : List Node
  root : Node
  trailing : List Node

/-- The SAX event set used by the adapter.  Attribute payloads are the
`AttributesNSImpl` value dict keyed by (uri?, localname) pairs — the qname
dict is dropped because `ElementTreeContentHandler` never reads it. -/
inductive SaxEvent where
  | startDocument
  | endDocument
  | startPrefixMapping (pfx : Option String) (uri : String)
  | endPrefixMapping (pfx : Option String)
  | startElementNS (nsName : Option String × String) (qname : String)
      (attrs : List ((Option String × String) × String))
  | endElementNS (nsName : Option String × String) (qname : String)
  | characters (data : String)
  | processingInstruction (target : String) (data : Option String)

/-- The tail slot of any node. -/
def getTail : Node → Option String
  | .element _ _ _ t _ _ _ => t
  | .comment _ t => t
  | .pi _ _ t => t

/-- Replace the tail slot of a node. -/
def setTail : Node → Option String → Node
  | .element tg a x _ m p c, t => .element tg a x t m p c
  | .comment x _, t => .comment x t
  | .pi g x _, t => .pi g x t

namespace ElementTreeProducer

/-- Error raised while emitting events for a tree. -/
inductive EmitErr where
  | qnameErr
  | badTag

/-- The body of the `sorted(prefixes, key=str)` scan in `_build_qname`:
walk the sorted prefix keys; on the first key bound to `u` record it and
break, except that with the "-1" preference the default (no-prefix) key is
recorded but the scan continues looking for a non-default alternative.
`acc` is the `prefix` variable (`none` when still unassigned, which is an
UnboundLocalError if the loop ends that way). -/
def scanLoop (m : List (Option String × String)) (u : String) (anyFlag : Bool) :
    Option (Option String) → List (Option String) → Option (Option String)
  | acc, [] => acc
  | acc, k :: rest =>
    if dGet m k = some u then
      if k = none ∧ anyFlag then scanLoop m u anyFlag (some none) rest
      else some k
    else scanLoop m u anyFlag acc rest

/-- `sorted(prefixes, key=str)`: the prefix keys in Python string order of
`str(key)` (`str(None)` is `"None"`), stably sorted. -/
def sortedKeys (m : List (Option String × String)) : List (Option String) :=
  (m.map Prod.fst).insertionSort (fun a b => pyLe (pyStr a) (pyStr b) = true)

/-- `_build_qname(ns_uri, local_name, prefixes, preferred_prefix)`.
`preferred = none` is the `-1` sentinel ("any prefix, but only accept the
default prefix if no other is available"); `preferred = some p` is an
actual preferred prefix (itself `none` for the default prefix).  The error
is the `UnboundLocalError` Python raises when no prefix matches. -/
def build_qname (ns_uri : Option String) (local_name : String)
    (pfxMap : List (Option String × String)) (preferred : Option (Option String)) :
    Except EmitErr String :=
  match ns_uri with
  | none => .ok local_name
  | some u =>
    let chosen : Option (Option String) :=
      match preferred with
      | some p =>
        if dGet pfxMap p = some u then some p
        else scanLoop pfxMap u false none (sortedKeys pfxMap)
      | none => scanLoop pfxMap u true none (sortedKeys pfxMap)
    match chosen with
    | none => .error .qnameErr
    | some none => .ok local_name
    | some (some p) => .ok (p ++ ":" ++ local_name)

/-- The namespace bindings new at an element: every pair of its namespace
map whose value differs from (or is absent in) the parent's map, guarded
by the `element.nsmap != parent_nsmap` fast path of the source. -/
def newPrefixes (parentNs nsmap : List (Option String × String)) :
    List (Option String × String) :=
  if nsmap = parentNs then []
  else nsmap.filter (fun pu => decide (dGet parentNs pu.1 ≠ some pu.2))

/-- The attribute loop of `_recursive_saxify`: split each Clark-notation
attribute name, build its qname (with the `-1` preference) for the
`AttributesNSImpl` qname dict, and collect the value dict keyed by
(uri?, localname).  Only the value dict is returned because the handler
side never reads the qnames; the qname computation is kept for its
error behaviour. -/
def emitAttrs (nsmap : List (Option String × String)) :
    List (String × String) → List ((Option String × String) × String) →
    Except EmitErr (List ((Option String × String) × String))
  | [], acc => .ok acc
  | (name, value) :: rest, acc =>
    match getNsTag name with
    | none => .error .badTag
    | some t =>
      match build_qname t.1 t.2 nsmap none with
      | .error e => .error e
      | .ok _ => emitAttrs nsmap rest (dSet acc t value)

/-- `if element.text: characters(element.text)` (and the same for tails). -/
def charsIfTruthy : Option String → List SaxEvent
  | none => []
  | some s => if s.isEmpty then [] else [.characters s]

mutual

/-- `_recursive_saxify(element)`, with the parent's namespace map passed
explicitly (the source reads it through `element.getparent()`, taking `{}`
at the root).  Returns the emitted event list. -/
def emitNode (parentNs : List (Option String × String)) :
    Node → Except EmitErr (List SaxEvent)
  | .comment _ tail => .ok (charsIfTruthy tail)
  | .pi target text tail =>
    .ok (.processingInstruction target text :: charsIfTruthy tail)
  | .element tag attrib text tail nsmap epfx children =>
    let newPfx := newPrefixes parentNs nsmap
    match (if attrib.isEmpty then .ok [] else emitAttrs nsmap attrib []) with
    | .error e => .error e
    | .ok saxAttributes =>
      match getNsTag tag with
      | none => .error .badTag
      | some nt =>
        match build_qname nt.1 nt.2 nsmap (some epfx) with
        | .error e => .error e
        | .ok qname =>
          match emitChildren nsmap children with
          | .error e => .error e
          | .ok childEvs =>
            .ok (newPfx.map (fun pu => .startPrefixMapping pu.1 pu.2) ++
              .startElementNS nt qname saxAttributes ::
                (charsIfTruthy text ++ childEvs ++
                  .endElementNS nt qname ::
                    (newPfx.map (fun pu => .endPrefixMapping pu.1) ++
                      charsIfTruthy tail)))

/-- `for child in element: _recursive_saxify(child)`. -/
def emitChildren (parentNs : List (Option String × String)) :
    List Node → Except EmitErr (List SaxEvent)
  | [] => .ok []
  | c :: cs =>
    match emitNode parentNs c with
    | .error e => .error e
    | .ok evs =>
      match emitChildren parentNs cs with
      | .error e => .error e
      | .ok rest => .ok (evs ++ rest)

end

/-- Is a node a processing instruction (`sibling.tag is ProcessingInstruction`)? -/
def isPiNode : Node → Bool
  | .pi _ _ _ => true
  | _ => false

/-- `saxify()`: document start, the leading processing-instruction siblings
(found by walking backward from the root while the sibling is a PI, then
replayed in forward order), the root, the trailing PI siblings (walked
forward), document end. -/
def saxifyDoc (d : Doc) : Except EmitErr (List SaxEvent) :=
  match emitChildren [] ((d.leading.reverse.takeWhile isPiNode).reverse) with
  | .error e => .error e
  | .ok pre =>
    match emitNode [] d.root with
    | .error e => .error e
    | .ok mid =>
      match emitChildren [] (d.trailing.takeWhile isPiNode) with
      | .error e => .error e
      | .ok post =>
        .ok (.startDocument :: (pre ++ mid ++ post ++ [.endDocument]))

end ElementTreeProducer

namespace ElementTreeContentHandler

/-- Errors raised by the handler: the explicit `SaxError` on a mismatched
close, plus the IndexError/KeyError paths of the source. -/
inductive BuildErr where
  | structureError (msg : String)
  | indexError
  | keyError

/-- An open element: the arguments its `makeelement`/`SubElement` call
received, plus the `text` and children accumulated while it is open. -/
structure Frame where
  ftag : String
  fattrib : List (String × String)
  fnsdecls : List (Option String × String)
  ftext : Option String
  fchildren : List Node

/-- Handler state: `_root` (set when the root element closes in this pure
model; `hasRoot` mirrors the Python `_root is None` test, which flips at
the root's start event), the buffered `_root_siblings`, the siblings
already attached before the root (`leading`), `_element_stack` (head is
the innermost open element), `_default_ns`, `_ns_mapping` (per-prefix URI
stacks, head is the top; the initial default stack holds `None`), and
`_new_mappings`. -/
structure HState where
  hasRoot : Bool
  root : Option Node
  rootSiblings : List Node
  leading : List Node
  stack : List Frame
  defaultNs : Option String
  nsMapping : List (Option String × List (Option String))
  newMappings : List (Option String × String)

/-- The state of a fresh `ElementTreeContentHandler`. -/
def initState : HState :=
  { hasRoot := false, root := none, rootSiblings := [], leading := [],
    stack := [], defaultNs := none, nsMapping := [(none, [none])],
    newMappings := [] }

/-- `startPrefixMapping(prefix, uri)`. -/
def startPrefixMapping (s : HState) (p : Option String) (uri : String) : HState :=
  let stk : List (Option String) :=
    match dGet s.nsMapping p with
    | some l => some uri :: l
    | none => [some uri]
  { s with newMappings := dSet s.newMappings p uri,
           nsMapping := dSet s.nsMapping p stk,
           defaultNs := if p = none then some uri else s.defaultNs }

/-- `endPrefixMapping(prefix)`: pop the per-prefix URI stack; for the
default prefix, the new `_default_ns` is the new stack top. -/
def endPrefixMapping (s : HState) (p : Option String) :
    Except (BuildErr × HState) HState :=
  match dGet s.nsMapping p with
  | none => .error (.keyError, s)
  | some stk =>
    match stk with
    | [] => .error (.indexError, s)
    | _ :: rest =>
      let s1 := { s with nsMapping := dSet s.nsMapping p rest }
      if p = none then
        match rest with
        | [] => .error (.indexError, s1)
        | top :: _ => .ok { s1 with defaultNs := top }
      else .ok s1

/-- The default-namespace fallback of `_buildTag`. -/
def buildTagNoNs (dns : Option String) (l : String) : String :=
  match dns with
  | some d => if !d.isEmpty then clark d l else l
  | none => l

/-- `_buildTag(ns_name_tuple)`: use the pair's URI when truthy, else the
current default namespace when truthy, else the bare local name. -/
def buildTag (dns : Option String) (nsName : Option String × String) : String :=
  match nsName.1 with
  | some u => if !u.isEmpty then clark u nsName.2 else buildTagNoNs dns nsName.2
  | none => buildTagNoNs dns nsName.2

/-- The attribute-name expression of `startElementNS`: Clark-format a
namespaced (truthy-URI) name pair, keep bare names as they are. -/
def formatName (nt : Option String × String) : String :=
  match nt.1 with
  | some u => if !u.isEmpty then clark u nt.2 else nt.2
  | none => nt.2

/-- The attribute loop of `startElementNS`, building the attrs dict. -/
def buildAttrsDict :
    List ((Option String × String) × String) → List (String × String) →
    List (String × String)
  | [], acc => acc
  | (nt, v) :: rest, acc => buildAttrsDict rest (dSet acc (formatName nt) v)

/-- `startElementNS(ns_name, qname, attributes)`: open a new element.  The
first element becomes the root (attaching the buffered leading siblings);
a later start with an empty open stack is the `SubElement(element_stack[-1], ...)`
IndexError. -/
def startElementNS (s : HState) (nsName : Option String × String)
    (attrs : List ((Option String × String) × String)) :
    Except (BuildErr × HState) HState :=
  let elName := buildTag s.defaultNs nsName
  let attrsD := if attrs.isEmpty then [] else buildAttrsDict attrs []
  let fr : Frame :=
    { ftag := elName, fattrib := attrsD, fnsdecls := s.newMappings,
      ftext := none, fchildren := [] }
  if s.hasRoot then
    match s.stack with
    | [] => .error (.indexError, s)
    | _ => .ok { s with stack := fr :: s.stack, newMappings := [] }
  else
    .ok { s with hasRoot := true, stack := [fr], leading := s.rootSiblings,
                 rootSiblings := [], newMappings := [] }

/-- Close a frame into a finished element node.  The recorded namespace
map is the declaration dict the element was created with. -/
def finishNode (fr : Frame) : Node :=
  .element fr.ftag fr.fattrib fr.ftext none fr.fnsdecls none fr.fchildren

/-- `endElementNS(ns_name, qname)`: pop the open-element stack, then raise
`SaxError` if the tag built from the event does not match the popped
element's tag.  The pop happens before the comparison, so the error state
already lacks the popped frame. -/
def endElementNS (s : HState) (nsName : Option String × String) :
    Except (BuildErr × HState) HState :=
  match s.stack with
  | [] => .error (.indexError, s)
  | fr :: rest =>
    let s1 := { s with stack := rest }
    let elTag := buildTag s1.defaultNs nsName
    if elTag ≠ fr.ftag then
      .error (.structureError ("Unexpected element closed: " ++ elTag), s1)
    else
      match rest with
      | [] => .ok { s1 with root := some (finishNode fr) }
      | p :: ps =>
        .ok { s1 with
                stack := { p with fchildren := p.fchildren ++ [finishNode fr] } :: ps }

/-- `characters(data)`: append to the tail of the last child of the open
element if it has one, else to the open element's text. -/
def characters (s : HState) (data : String) : Except (BuildErr × HState) HState :=
  match s.stack with
  | [] => .error (.indexError, s)
  | fr :: rest =>
    match fr.fchildren.getLast? with
    | some lastChild =>
      let t := setTail lastChild (some ((getTail lastChild).getD "" ++ data))
      .ok { s with stack := { fr with fchildren := fr.fchildren.dropLast ++ [t] } :: rest }
    | none =>
      .ok { s with stack := { fr with ftext := some (fr.ftext.getD "" ++ data) } :: rest }

/-- `processingInstruction(target, data)`: buffered as a pending root
sibling before the root exists, else appended to the open element. -/
def processingInstruction (s : HState) (target : String) (data : Option String) :
    Except (BuildErr × HState) HState :=
  let piNode := Node.pi target data none
  if s.hasRoot then
    match s.stack with
    | [] => .error (.indexError, s)
    | fr :: rest =>
      .ok { s with stack := { fr with fchildren := fr.fchildren ++ [piNode] } :: rest }
  else .ok { s with rootSiblings := s.rootSiblings ++ [piNode] }

/-- Dispatch one SAX event to the handler. -/
def step (s : HState) : SaxEvent → Except (BuildErr × HState) HState
  | .startDocument => .ok s
  | .endDocument => .ok s
  | .startPrefixMapping p u => .ok (startPrefixMapping s p u)
  | .endPrefixMapping p => endPrefixMapping s p
  | .startElementNS nsName _ attrs => startElementNS s nsName attrs
  | .endElementNS nsName _ => endElementNS s nsName
  | .characters d => characters s d
  | .processingInstruction t d => processingInstruction s t d

/-- Feed an event list to the handler, stopping at the first raise. -/
def run (s : HState) : List SaxEvent → Except (BuildErr × HState) HState
  | [] => .ok s
  | e :: es =>
    match step s e with
    | .ok s' => run s' es
    | .error err => .error err

/-- The value the next `characters` event would extend: the tail of the
open element's last child if it has children, else the open element's
text.  `none` when no element is open. -/
def currentSlot (s : HState) : Option (Option String) :=
  match s.stack with
  | [] => none
  | fr :: _ =>
    match fr.fchildren.getLast? with
    | some c => some (getTail c)
    | none => some fr.ftext

end ElementTreeContentHandler

mutual

/-- Structural and namespace equivalence of nodes, as the round-trip
property compares trees: tags resolved to the same (URI, localname) pair,
equal attribute dicts, equal text and tail, equivalent children in the
same order.  Namespace maps and recorded prefixes are not compared. -/
def eqvNode : Node → Node → Bool
  | .element t1 a1 x1 l1 _ _ c1, .element t2 a2 x2 l2 _ _ c2 =>
    getNsTag t1 == getNsTag t2 && a1 == a2 && x1 == x2 && l1 == l2 &&
      eqvList c1 c2
  | .pi g1 x1 l1, .pi g2 x2 l2 => g1 == g2 && x1 == x2 && l1 == l2
  | .comment x1 l1, .comment x2 l2 => x1 == x2 && l1 == l2
  | _, _ => false

/-- Pointwise equivalence of child lists. -/
def eqvList : List Node → List Node → Bool
  | [], [] => true
  | a :: as, b :: bs => eqvNode a b && eqvList as bs
  | _, _ => false

end

/-- Equivalence of documents: leading siblings, root and trailing siblings. -/
def eqvDoc (a b : Doc) : Bool :=
  eqvList a.leading b.leading && eqvNode a.root b.root &&
    eqvList a.trailing b.trailing

/-- Emit the SAX events of a document and rebuild a document from them with
a fresh handler.  `none` when either side raises or no root was built. -/
def roundTrip (d : Doc) : Option Doc :=
  match ElementTreeProducer.saxifyDoc d with
  | .error _ => none
  | .ok evs =>
    match ElementTreeContentHandler.run ElementTreeContentHandler.initState evs with
    | .error _ => none
    | .ok s =>
      match s.root with
      | some r => some ⟨s.leading, r, []⟩
      | none => none

/-- Does `build(emit(d))` succeed and produce a document equivalent to `d`? -/
def roundTripOk (d : Doc) : Bool :=
  match roundTrip d with
  | some d' => eqvDoc d' d
  | none => false

/-- Is there a namespace-map entry binding a non-default prefix to `u`? -/
def hasNonDefault (m : List (Option String × String)) (u : String) : Bool :=
  m.any (fun pu => pu.1 ≠ none && pu.2 == u)

mutual

/-- No namespace map in the tree binds the default prefix and a non-default
prefix to the same URI — the "no mixed default/non-default URI ambiguity"
hypothesis of the round-trip property, read literally. -/
def noMixedAmbiguity : Node → Bool
  | .element _ _ _ _ nsmap _ children =>
    (match dGet nsmap none with
     | some u => !hasNonDefault nsmap u
     | none => true) && noMixedAmbiguityList children
  | .comment _ _ => true
  | .pi _ _ _ => true

/-- `noMixedAmbiguity` over a child list. -/
def noMixedAmbiguityList : List Node → Bool
  | [] => true
  | c :: cs => noMixedAmbiguity c && noMixedAmbiguityList cs

end

/-- Well-formedness of an element tag relative to the namespace map in
scope at the element: it parses, a namespaced tag has a nonempty URI bound
by some prefix of the map, and a plain tag is only allowed where no
default namespace is visible (otherwise the handler would resolve it into
the default namespace and the round trip loses it). -/
def wfTag (nsmap parentNs : List (Option String × String)) (tag : String) : Bool :=
  match getNsTag tag with
  | some (some u, _) => !u.isEmpty && nsmap.any (fun pu => pu.2 == u)
  | some (none, _) => dGet nsmap none == none && dGet parentNs none == none
  | none => false

/-- Well-formedness of one Clark-notation attribute name relative to the
element's namespace map: it parses, and a namespaced name has a nonempty
URI bound by some prefix of the map. -/
def wfAttrName (nsmap : List (Option String × String)) (name : String) : Bool :=
  match getNsTag name with
  | some (some u, _) => !u.isEmpty && nsmap.any (fun pu => pu.2 == u)
  | some (none, _) => true
  | none => false

mutual

/-- The lossless trees: those whose emitted event stream rebuilds an
equivalent tree.  Relative to the parent's namespace map `P`, an element
must have: a well-formed tag, well-formed attributes with distinct names,
a namespace map with distinct keys that never drops a default binding
visible in `P`, no empty-string text or tail (Python truthiness makes
them unobservable), and lossless children under its own map.  Comments
are information-losing (the producer emits no event for them) and
processing instructions must not carry an empty-string tail. -/
def wfNode (P : List (Option String × String)) : Node → Bool
  | .element tag attrib text tail nsmap _ children =>
    wfTag nsmap P tag &&
    nodupKeys nsmap &&
    (dGet nsmap none ≠ none || dGet P none == none) &&
    attrib.all (fun nv => wfAttrName nsmap nv.1) &&
    nodupKeys attrib &&
    text ≠ some "" && tail ≠ some "" &&
    wfChildren nsmap children
  | .comment _ _ => false
  | .pi _ _ tail => tail ≠ some ""

/-- `wfNode` over a child list. -/
def wfChildren (P : List (Option String × String)) : List Node → Bool
  | [] => true
  | c :: cs => wfNode P c && wfChildren P cs

end

/-- Is an event a scope-start event? -/
def isStartPfxEv : SaxEvent → Bool
  | .startPrefixMapping _ _ => true
  | _ => false

/-- Bracketing tokens for the scope-pairing checkers. -/
inductive Tok where
  | pfxT (p : Option String)
  | elemT

/-- Strict LIFO checker: scope-start and element-start push a token,
scope-end and element-end must pop a matching token from the top.
Returns the final stack, or `none` on any violation. -/
def runCheck : List Tok → List SaxEvent → Option (List Tok)
  | st, [] => some st
  | st, ev :: evs =>
    match ev with
    | .startPrefixMapping p _ => runCheck (.pfxT p :: st) evs
    | .endPrefixMapping p =>
      match st with
      | .pfxT q :: rest => if p = q then runCheck rest evs else none
      | _ => none
    | .startElementNS _ _ _ => runCheck (.elemT :: st) evs
    | .endElementNS _ _ =>
      match st with
      | .elemT :: rest => runCheck rest evs
      | _ => none
    | _ => runCheck st evs

/-- Remove the deepest token of the maximal leading scope-token run when
its prefix is `p`; fail if the run is empty or the deepest prefix differs. -/
def popDeep (p : Option String) : List Tok → Option (List Tok)
  | .pfxT q :: rest =>
    match rest with
    | .pfxT _ :: _ => (popDeep p rest).map (.pfxT q :: ·)
    | _ => if q = p then some rest else none
  | _ => none

/-- The discipline the producer actually follows: an element's scope-end
events are emitted after its element-end in the SAME order as the
corresponding scope-starts, so a scope-end must match the DEEPEST pending
scope token of the current run (the earliest-started one), while element
start/end still bracket strictly. -/
def runCheck2 : List Tok → List SaxEvent → Option (List Tok)
  | st, [] => some st
  | st, ev :: evs =>
    match ev with
    | .startPrefixMapping p _ => runCheck2 (.pfxT p :: st) evs
    | .endPrefixMapping p =>
      match popDeep p st with
      | some st' => runCheck2 st' evs
      | none => none
    | .startElementNS _ _ _ => runCheck2 (.elemT :: st) evs
    | .endElementNS _ _ =>
      match st with
      | .elemT :: rest => runCheck2 rest evs
      | _ => none
    | _ => runCheck2 st evs

/-! ### Association-list (Python dict) lemmas -/

theorem dGet_cons_self {α β : Type} [DecidableEq α] {rest : List (α × β)} {k : α} {v : β} :
    dGet ((k, v) :: rest) k = some v := by
  rw [dGet, List.find?_cons_of_pos _ (by simp)]
  rfl

theorem dGet_cons_ne {α β : Type} [DecidableEq α] {rest : List (α × β)} {p : α × β} {k : α}
    (h : p.1 ≠ k) : dGet (p :: rest) k = dGet rest k := by
  rw [dGet, List.find?_cons_of_neg _ (by simpa using h)]
  rfl

theorem mem_of_dGet {α β : Type} [DecidableEq α] {m : List (α × β)} {k : α} {v : β}
    (h : dGet m k = some v) : (k, v) ∈ m := by
  induction m with
  | nil => simp [dGet] at h
  | cons p rest ih =>
    by_cases hk : p.1 = k
    · rcases p with ⟨a, b⟩
      subst hk
      rw [dGet_cons_self] at h
      rw [Option.some_inj] at h
      subst h
      exact List.mem_cons_self _ rest
    · rw [dGet_cons_ne hk] at h
      exact List.mem_cons_of_mem _ (ih h)

theorem dGet_of_mem_nodup {α β : Type} [DecidableEq α] {m : List (α × β)} {k : α} {v : β}
    (hnd : nodupKeys m = true) (h : (k, v) ∈ m) : dGet m k = some v := by
  induction m with
  | nil => simp at h
  | cons p rest ih =>
    simp only [nodupKeys, Bool.and_eq_true, Bool.not_eq_true', List.any_eq_false,
      decide_eq_false_iff_not] at hnd
    rcases List.mem_cons.mp h with h1 | h1
    · subst h1; exact dGet_cons_self
    · have hk : p.1 ≠ k := by
        intro e; exact hnd.1 _ h1 (decide_eq_true e.symm)
      rw [dGet_cons_ne hk]
      exact ih hnd.2 h1

theorem dGet_eq_none {α β : Type} [DecidableEq α] {m : List (α × β)} {k : α}
    (h : ∀ v, (k, v) ∉ m) : dGet m k = none := by
  induction m with
  | nil => rfl
  | cons p rest ih =>
    have hk : p.1 ≠ k := by
      intro e
      exact h p.2 (by rw [← e]; exact List.mem_cons_self p rest)
    rw [dGet_cons_ne hk]
    exact ih (fun v hv => h v (List.mem_cons_of_mem _ hv))

theorem dSet_append {α β : Type} [DecidableEq α] {m : List (α × β)} {k : α} (v : β)
    (h : dGet m k = none) : dSet m k v = m ++ [(k, v)] := by
  have hf : m.find? (fun p => decide (p.1 = k)) = none := by
    rcases hx : m.find? (fun p => decide (p.1 = k)) with _ | p
    · exact hx
    · rw [dGet, hx] at h; simp at h
  have hany : m.any (fun p => decide (p.1 = k)) = false := by
    rw [List.any_eq_false]
    intro p hp
    simpa using List.find?_eq_none.mp hf p hp
  simp [dSet, hany]

/-! ### Clark-notation lemmas -/

theorem mk_data (s : String) : String.mk s.data = s := rfl

theorem data_inj {a b : String} (h : a.data = b.data) : a = b := by
  rcases a with ⟨da⟩; rcases b with ⟨db⟩
  exact congrArg String.mk (h : da = db)

theorem getNsTag_mk_cons (c : Char) (cs : List Char) :
    getNsTag (String.mk (c :: cs)) =
      (if c = '{' then
        (splitBrace cs).map (fun p => (some (String.mk p.1), String.mk p.2))
      else some (none, String.mk (c :: cs))) := rfl

theorem splitBrace_append {a : List Char} (b : List Char) (h : '}' ∉ a) :
    splitBrace (a ++ '}' :: b) = some (a, b) := by
  induction a with
  | nil => simp [splitBrace]
  | cons c cs ih =>
    have hc : c ≠ '}' := fun e => h (e ▸ List.mem_cons_self c cs)
    have hcs : '}' ∉ cs := fun hm => h (List.mem_cons_of_mem _ hm)
    simp [splitBrace, hc, ih hcs]

theorem splitBrace_sound :
    ∀ {cs a b : List Char}, splitBrace cs = some (a, b) →
      cs = a ++ '}' :: b ∧ '}' ∉ a := by
  intro cs
  induction cs with
  | nil => intro a b h; simp [splitBrace] at h
  | cons c cs ih =>
    intro a b h
    by_cases hc : c = '}'
    · subst hc
      rw [splitBrace, if_pos rfl, Option.some_inj] at h
      have ha : ([] : List Char) = a := congrArg Prod.fst h
      have hb : cs = b := congrArg Prod.snd h
      subst ha; subst hb
      exact ⟨rfl, by simp⟩
    · rw [splitBrace, if_neg hc] at h
      rcases hsb : splitBrace cs with _ | ⟨a', b'⟩ <;> rw [hsb] at h
      · exact absurd h (by simp)
      · rw [Option.map_eq_some'] at h
        obtain ⟨p, hp, heq⟩ := h
        rw [Option.some_inj] at hp
        subst hp
        have ha : c :: a' = a := congrArg Prod.fst heq
        have hb : b' = b := congrArg Prod.snd heq
        obtain ⟨hcs, hna⟩ := ih hsb
        subst hb
        refine ⟨?_, ?_⟩
        · rw [← ha, hcs]; rfl
        · rw [← ha]
          intro hm
          rcases List.mem_cons.mp hm with h1 | h1
          · exact hc h1.symm
          · exact hna h1

theorem getNsTag_clark {u : String} (l : String) (h : '}' ∉ u.data) :
    getNsTag (clark u l) = some (some u, l) := by
  rw [clark, getNsTag_mk_cons, if_pos rfl, splitBrace_append _ h]
  simp [mk_data]

theorem getNsTag_ns_recover {tag u : String} {l : String}
    (h : getNsTag tag = some (some u, l)) :
    tag = clark u l ∧ '}' ∉ u.data := by
  rcases tag with ⟨tdata⟩
  rcases tdata with _ | ⟨c, cs⟩
  · exact absurd h (by simp [getNsTag])
  · rw [getNsTag_mk_cons] at h
    by_cases hc : c = '{'
    · subst hc
      rw [if_pos rfl] at h
      rcases hsb : splitBrace cs with _ | ⟨a, b⟩ <;> rw [hsb] at h
      · exact absurd h (by simp)
      · rw [Option.map_eq_some'] at h
        obtain ⟨p, hp, heq⟩ := h
        rw [Option.some_inj] at hp
        subst hp
        have ha : some (String.mk a) = some u := congrArg Prod.fst heq
        have hb : String.mk b = l := congrArg Prod.snd heq
        rw [Option.some_inj] at ha
        obtain ⟨hcs, hna⟩ := splitBrace_sound hsb
        constructor
        · apply data_inj
          show '{' :: cs = (clark u l).data
          rw [hcs, ← ha, ← hb]
          rfl
        · rw [← ha]; exact hna
    · rw [if_neg hc, Option.some_inj] at h
      exact absurd (congrArg Prod.fst h) (by simp)

theorem getNsTag_plain_recover {tag : String} {l : String}
    (h : getNsTag tag = some (none, l)) : l = tag := by
  rcases tag with ⟨tdata⟩
  rcases tdata with _ | ⟨c, cs⟩
  · exact absurd h (by simp [getNsTag])
  · rw [getNsTag_mk_cons] at h
    by_cases hc : c = '{'
    · subst hc
      rw [if_pos rfl] at h
      rcases hsb : splitBrace cs with _ | ⟨a, b⟩ <;> rw [hsb] at h
      · exact absurd h (by simp)
      · rw [Option.map_eq_some'] at h
        obtain ⟨p, _, heq⟩ := h
        exact absurd (congrArg Prod.fst heq) (by simp)
    · rw [if_neg hc, Option.some_inj] at h
      exact (congrArg Prod.snd h).symm

/-- Rebuilding a parsed tag reproduces the original string: this is how the
handler's `startElementNS` restores Clark-notation names emitted by the
producer. -/
theorem getNsTag_roundtrip {tag : String} :
    ∀ {nt}, getNsTag tag = some nt →
      (match nt.1 with
       | some u => clark u nt.2
       | none => nt.2) = tag := by
  intro nt h
  rcases nt with ⟨u? , l⟩
  rcases u? with _ | u
  · simpa using (getNsTag_plain_recover h)
  · simpa using (getNsTag_ns_recover h).1.symm

/-! ### Handler claims: tag mismatch, text accumulation, empty URI -/

section HandlerClaims

open ElementTreeContentHandler

theorem run_nil (s : HState) : run s [] = .ok s := rfl

theorem run_cons_ok {s s' : HState} {e : SaxEvent} {evs : List SaxEvent}
    (h : step s e = .ok s') : run s (e :: evs) = run s' evs := by
  rw [run, h]

theorem run_cons_error {s : HState} {e : SaxEvent} {evs : List SaxEvent}
    {err : BuildErr × HState} (h : step s e = .error err) :
    run s (e :: evs) = .error err := by
  rw [run, h]

theorem run_append (s : HState) (a b : List SaxEvent) :
    run s (a ++ b) =
      (match run s a with
       | .ok s' => run s' b
       | .error err => .error err) := by
  induction a generalizing s with
  | nil => simp [run]
  | cons e es ih =>
    rw [List.cons_append, run, run]
    rcases h : step s e with err | s' <;> simp [ih]

theorem characters_cons_none (s : HState) (fr : Frame) (rest : List Frame) (d : String)
    (hstack : s.stack = fr :: rest) (hnil : fr.fchildren.getLast? = none) :
    step s (.characters d) =
      .ok { s with stack := { fr with ftext := some (fr.ftext.getD "" ++ d) } :: rest } := by
  simp only [step, characters]
  rw [hstack]
  simp only [hnil]

theorem characters_cons_last (s : HState) (fr : Frame) (rest : List Frame) (c : Node)
    (d : String) (hstack : s.stack = fr :: rest) (hlast : fr.fchildren.getLast? = some c) :
    step s (.characters d) =
      .ok { s with stack :=
        { fr with fchildren :=
            fr.fchildren.dropLast ++ [setTail c (some ((getTail c).getD "" ++ d))] } :: rest } := by
  simp only [step, characters]
  rw [hstack]
  simp only [hlast]

theorem getTail_setTail (c : Node) (t : Option String) : getTail (setTail c t) = t := by
  rcases c <;> rfl

theorem setTail_setTail (c : Node) (t1 t2 : Option String) :
    setTail (setTail c t1) t2 = setTail c t2 := by
  rcases c <;> rfl

/-- C3: when an element-end event's (namespaceURI, localName) resolves (via
`_buildTag` under the current default namespace) to a tag different from
the tag of the innermost open element, the handler raises `SaxError`
immediately and no further event is processed; when it resolves to the
same tag, the event succeeds. -/
theorem c3_end_mismatch_raises (s : HState) (fr : Frame) (rest : List Frame)
    (nsName : Option String × String) (q : String) (evs : List SaxEvent)
    (hstack : s.stack = fr :: rest) :
    (buildTag s.defaultNs nsName ≠ fr.ftag →
      run s (.endElementNS nsName q :: evs) =
        .error (.structureError ("Unexpected element closed: " ++ buildTag s.defaultNs nsName),
                { s with stack := rest })) ∧
    (buildTag s.defaultNs nsName = fr.ftag →
      ∃ s', step s (.endElementNS nsName q) = .ok s') := by
  constructor
  · intro hne
    rw [run, step, endElementNS, hstack]
    simp only [if_pos hne]
  · intro heq
    rw [step, endElementNS, hstack]
    simp only [heq, if_neg (by simp : ¬fr.ftag ≠ fr.ftag)]
    rcases rest with _ | ⟨p, ps⟩
    · exact ⟨_, rfl⟩
    · exact ⟨_, rfl⟩

/-- Witness for C3, the spec's own test: after `startElement(None,"a")`,
`startElement(None,"b")`, the event `endElement(None,"c")` raises a
structure error (with further events pending), while `endElement(None,"b")`
would succeed. -/
theorem c3_witness :
    (let s : HState :=
      { hasRoot := true, root := none, rootSiblings := [], leading := [],
        stack := [⟨"b", [], [], none, []⟩, ⟨"a", [], [], none, []⟩],
        defaultNs := none, nsMapping := [(none, [none])], newMappings := [] }
     run s [.endElementNS (none, "c") "c", .characters "later"] =
        .error (.structureError "Unexpected element closed: c",
                { s with stack := [⟨"a", [], [], none, []⟩] }) ∧
      ∃ s', step s (.endElementNS (none, "b") "b") = .ok s') := by
  constructor
  · exact (c3_end_mismatch_raises _ ⟨"b", [], [], none, []⟩ [⟨"a", [], [], none, []⟩]
      (none, "c") "c" [.characters "later"] rfl).1 (by decide)
  · exact (c3_end_mismatch_raises _ ⟨"b", [], [], none, []⟩ [⟨"a", [], [], none, []⟩]
      (none, "b") "b" [] rfl).2 (by decide)

/-- C9: the mismatch error of the element-end handler is raised only after
the open-element stack has been popped: the error state's stack is the
tail of the pre-event stack, one element shorter. -/
theorem c9_pop_precedes_mismatch_error (s : HState) (fr : Frame) (rest : List Frame)
    (nsName : Option String × String) (q : String)
    (hstack : s.stack = fr :: rest)
    (hne : buildTag s.defaultNs nsName ≠ fr.ftag) :
    ∃ msg st, step s (.endElementNS nsName q) = .error (.structureError msg, st) ∧
      st.stack = rest ∧ st.stack.length + 1 = s.stack.length := by
  refine ⟨"Unexpected element closed: " ++ buildTag s.defaultNs nsName,
    { s with stack := rest }, ?_, rfl, by rw [hstack]; rfl⟩
  rw [step, endElementNS, hstack]
  simp only [if_pos hne]

/-- Witness for C9 at a concrete state: closing `c` over an open `b` pops
the stack from two frames to one before raising. -/
theorem c9_witness :
    ∃ msg st,
      step { hasRoot := true, root := none, rootSiblings := [], leading := [],
             stack := [⟨"b", [], [], none, []⟩, ⟨"a", [], [], none, []⟩],
             defaultNs := none, nsMapping := [(none, [none])], newMappings := [] }
          (.endElementNS (none, "c") "c") = .error (.structureError msg, st) ∧
        st.stack = [⟨"a", [], [], none, []⟩] ∧ st.stack.length + 1 = 2 := by
  exact c9_pop_precedes_mismatch_error _ ⟨"b", [], [], none, []⟩ [⟨"a", [], [], none, []⟩]
    (none, "c") "c" rfl (by decide)

/-- C7: two consecutive character-data events with no intervening event
behave exactly like one event carrying the concatenation, and the stored
slot (text of the open element while it has no children, tail of its last
child otherwise) ends as the previous value extended by both payloads in
order. -/
theorem c7_characters_accumulate (s : HState) (fr : Frame) (rest : List Frame)
    (d1 d2 : String) (hstack : s.stack = fr :: rest) :
    run s [.characters d1, .characters d2] = run s [.characters (d1 ++ d2)] ∧
    ∃ s' v, currentSlot s = some v ∧
      run s [.characters d1, .characters d2] = .ok s' ∧
      currentSlot s' = some (some (v.getD "" ++ d1 ++ d2)) := by
  rcases hlast : fr.fchildren.getLast? with _ | c
  · constructor
    · rw [run_cons_ok (characters_cons_none s fr rest d1 hstack hlast)]
      rw [run_cons_ok (characters_cons_none
        { s with stack := { fr with ftext := some (fr.ftext.getD "" ++ d1) } :: rest }
        { fr with ftext := some (fr.ftext.getD "" ++ d1) } rest d2 rfl hlast)]
      rw [run_cons_ok (characters_cons_none s fr rest (d1 ++ d2) hstack hlast)]
      simp [String.append_assoc]
    · refine ⟨{ s with stack :=
          { fr with ftext := some (fr.ftext.getD "" ++ d1 ++ d2) } :: rest },
        fr.ftext, ?_, ?_, ?_⟩
      · simp [currentSlot, hstack, hlast]
      · rw [run_cons_ok (characters_cons_none s fr rest d1 hstack hlast)]
        rw [run_cons_ok (characters_cons_none
          { s with stack := { fr with ftext := some (fr.ftext.getD "" ++ d1) } :: rest }
          { fr with ftext := some (fr.ftext.getD "" ++ d1) } rest d2 rfl hlast)]
        rw [run_nil]
        exact rfl
      · simp [currentSlot, hlast]
  · constructor
    · rw [run_cons_ok (characters_cons_last s fr rest c d1 hstack hlast)]
      rw [run_cons_ok (characters_cons_last
        { s with stack := { fr with fchildren :=
            fr.fchildren.dropLast ++ [setTail c (some ((getTail c).getD "" ++ d1))] } :: rest }
        { fr with fchildren :=
            fr.fchildren.dropLast ++ [setTail c (some ((getTail c).getD "" ++ d1))] }
        rest (setTail c (some ((getTail c).getD "" ++ d1))) d2 rfl (List.getLast?_concat _))]
      rw [run_cons_ok (characters_cons_last s fr rest c (d1 ++ d2) hstack hlast)]
      simp [List.dropLast_concat, getTail_setTail, setTail_setTail, String.append_assoc]
    · refine ⟨{ s with stack := { fr with fchildren :=
          fr.fchildren.dropLast ++
            [setTail c (some ((getTail c).getD "" ++ d1 ++ d2))] } :: rest },
        getTail c, ?_, ?_, ?_⟩
      · simp [currentSlot, hstack, hlast]
      · rw [run_cons_ok (characters_cons_last s fr rest c d1 hstack hlast)]
        rw [run_cons_ok (characters_cons_last
          { s with stack := { fr with fchildren :=
              fr.fchildren.dropLast ++ [setTail c (some ((getTail c).getD "" ++ d1))] } :: rest }
          { fr with fchildren :=
              fr.fchildren.dropLast ++ [setTail c (some ((getTail c).getD "" ++ d1))] }
          rest (setTail c (some ((getTail c).getD "" ++ d1))) d2 rfl (List.getLast?_concat _))]
        rw [run_nil]
        simp [List.dropLast_concat, getTail_setTail, setTail_setTail]
      · simp [currentSlot, List.getLast?_concat, getTail_setTail]

/-- Witness for C7: with `"ab"` already stored as the open element's text,
`characters("cd")` then `characters("ef")` is `characters("cdef")` and
leaves text `"abcdef"`. -/
theorem c7_witness :
    (let s : HState :=
      { hasRoot := true, root := none, rootSiblings := [], leading := [],
        stack := [⟨"r", [], [], some "ab", []⟩],
        defaultNs := none, nsMapping := [(none, [none])], newMappings := [] }
     run s [.characters "cd", .characters "ef"] = run s [.characters "cdef"] ∧
      ∃ s' v, currentSlot s = some v ∧
        run s [.characters "cd", .characters "ef"] = .ok s' ∧
        currentSlot s' = some (some (v.getD "" ++ "cd" ++ "ef"))) :=
  c7_characters_accumulate _ ⟨"r", [], [], some "ab", []⟩ [] "cd" "ef" rfl

/-- C10: an element event whose namespace URI is the empty string is
resolved by `_buildTag` exactly as if the URI were absent — the current
default namespace applies when truthy, otherwise the tag is the bare local
name — both at element start and at the element-end comparison. -/
theorem c10_empty_uri_like_absent (dns : Option String) (l : String) (s : HState)
    (q : String) (attrs : List ((Option String × String) × String)) :
    buildTag dns (some "", l) = buildTag dns (none, l) ∧
    (∀ d, dns = some d → oTruthy dns = true → buildTag dns (some "", l) = clark d l) ∧
    (oTruthy dns = false → buildTag dns (some "", l) = l) ∧
    step s (.startElementNS (some "", l) q attrs) = step s (.startElementNS (none, l) q attrs) ∧
    step s (.endElementNS (some "", l) q) = step s (.endElementNS (none, l) q) := by
  refine ⟨rfl, ?_, ?_, ?_, ?_⟩
  · intro d hd ht
    subst hd
    rw [oTruthy] at ht
    show buildTagNoNs (some d) l = clark d l
    rw [buildTagNoNs, if_pos ht]
  · intro hf
    rcases dns with _ | d
    · rfl
    · rw [oTruthy] at hf
      show buildTagNoNs (some d) l = l
      rw [buildTagNoNs, if_neg (by simp [hf])]
  · rfl
  · rfl

/-- Witness for C10: with default namespace `u`, an empty-URI start event
builds tag `{u}a`; with no default it builds the bare `a`. -/
theorem c10_witness :
    buildTag (some "u") (some "", "a") = buildTag (some "u") (none, "a") ∧
    buildTag (some "u") (some "", "a") = clark "u" "a" ∧
    buildTag none (some "", "a") = "a" :=
  ⟨(c10_empty_uri_like_absent (some "u") "a" initState "q" []).1,
   (c10_empty_uri_like_absent (some "u") "a" initState "q" []).2.1 "u" rfl (by decide),
   (c10_empty_uri_like_absent none "a" initState "q" []).2.2.1 (by decide)⟩

end HandlerClaims

/-! ### QName resolution claims -/

section QNameClaims

open ElementTreeProducer

theorem nodup_keys_of_nodupKeys {α β : Type} [DecidableEq α] {m : List (α × β)}
    (h : nodupKeys m = true) : (m.map Prod.fst).Nodup := by
  induction m with
  | nil => simp
  | cons p rest ih =>
    simp only [nodupKeys, Bool.and_eq_true, Bool.not_eq_true', List.any_eq_false,
      decide_eq_false_iff_not] at h
    rw [List.map_cons, List.nodup_cons]
    refine ⟨?_, ih h.2⟩
    intro hmem
    obtain ⟨q, hq, hq1⟩ := List.mem_map.mp hmem
    exact h.1 q hq (decide_eq_true hq1)

theorem mem_sortedKeys {m : List (Option String × String)} {k : Option String} :
    k ∈ sortedKeys m ↔ k ∈ m.map Prod.fst :=
  (List.perm_insertionSort _ _).mem_iff

theorem sortedKeys_nodup {m : List (Option String × String)}
    (h : (m.map Prod.fst).Nodup) : (sortedKeys m).Nodup :=
  (List.perm_insertionSort _ _).nodup_iff.mpr h

theorem scanLoop_of_no_match (m : List (Option String × String)) (u : String)
    (f : Bool) (acc : Option (Option String)) :
    ∀ keys, (∀ k ∈ keys, dGet m k ≠ some u) → scanLoop m u f acc keys = acc := by
  intro keys
  induction keys with
  | nil => intro; rfl
  | cons k0 rest ih =>
    intro h
    rw [scanLoop, if_neg (h k0 (List.mem_cons_self _ _))]
    exact ih (fun k hk => h k (List.mem_cons_of_mem _ hk))

theorem scanLoop_nondefault (m : List (Option String × String)) (u : String) :
    ∀ keys (acc : Option (Option String)),
      (∃ k ∈ keys, k ≠ none ∧ dGet m k = some u) →
      ∃ p, scanLoop m u true acc keys = some (some p) ∧ dGet m (some p) = some u := by
  intro keys
  induction keys with
  | nil => rintro acc ⟨k, hk, _⟩; simp at hk
  | cons k0 rest ih =>
    rintro acc ⟨k, hk, hkn, hku⟩
    by_cases h0 : dGet m k0 = some u
    · by_cases hk0n : k0 = none
      · subst hk0n
        rw [scanLoop, if_pos h0, if_pos ⟨rfl, rfl⟩]
        apply ih
        refine ⟨k, ?_, hkn, hku⟩
        rcases List.mem_cons.mp hk with h1 | h1
        · exact absurd h1 (fun e => hkn (e.trans rfl))
        · exact h1
      · rw [scanLoop, if_pos h0, if_neg (by simp [hk0n])]
        rcases k0 with _ | p
        · exact absurd rfl hk0n
        · exact ⟨p, rfl, h0⟩
    · rw [scanLoop, if_neg h0]
      apply ih
      refine ⟨k, ?_, hkn, hku⟩
      rcases List.mem_cons.mp hk with h1 | h1
      · exact absurd (h1 ▸ hku) h0
      · exact h1

theorem scanLoop_default_only (m : List (Option String × String)) (u : String) :
    ∀ keys (acc : Option (Option String)), keys.Nodup →
      (∀ k ∈ keys, dGet m k = some u → k = none) →
      none ∈ keys → dGet m none = some u →
      scanLoop m u true acc keys = some none := by
  intro keys
  induction keys with
  | nil => intro acc _ _ hmem; simp at hmem
  | cons k0 rest ih =>
    intro acc hnd hall hmem hu
    by_cases hk0 : k0 = none
    · subst hk0
      rw [scanLoop, if_pos hu, if_pos ⟨rfl, rfl⟩]
      apply scanLoop_of_no_match
      intro k hk hku
      have hknone : k = none := hall k (List.mem_cons_of_mem _ hk) hku
      rw [List.nodup_cons] at hnd
      exact hnd.1 (hknone ▸ hk)
    · have hne : dGet m k0 ≠ some u :=
        fun h => hk0 (hall k0 (List.mem_cons_self _ _) h)
      rw [scanLoop, if_neg hne]
      rw [List.nodup_cons] at hnd
      refine ih acc hnd.2 (fun k hk => hall k (List.mem_cons_of_mem _ hk)) ?_ hu
      rcases List.mem_cons.mp hmem with h1 | h1
      · exact absurd h1.symm hk0
      · exact h1

/-- C4: when the namespace URI is present (not `None`) but no prefix of the
visible prefix map is bound to it, `_build_qname` fails (the Python
`UnboundLocalError` on `prefix`) instead of returning a qname; the failure
propagates, aborting the walk of the enclosing sibling list, and an
element whose own tag carries such a URI makes `_recursive_saxify` fail. -/
theorem c4_unbound_uri_raises (u local_name : String)
    (pfxMap : List (Option String × String)) (preferred : Option (Option String))
    (h : ∀ pu ∈ pfxMap, pu.2 ≠ u) :
    build_qname (some u) local_name pfxMap preferred = .error .qnameErr ∧
    (∀ P e rest er, emitNode P e = .error er →
      emitChildren P (e :: rest) = .error er) ∧
    (∀ P tag text tail nsmap epfx children l,
      getNsTag tag = some (some u, l) → (∀ pu ∈ nsmap, pu.2 ≠ u) →
      emitNode P (.element tag [] text tail nsmap epfx children) = .error .qnameErr) := by
  have hno : ∀ (m : List (Option String × String)), (∀ pu ∈ m, pu.2 ≠ u) →
      ∀ k, dGet m k ≠ some u := by
    intro m hm k hk
    exact hm _ (mem_of_dGet hk) rfl
  have hq : ∀ (m : List (Option String × String)) (pref : Option (Option String))
      (ln : String), (∀ pu ∈ m, pu.2 ≠ u) →
      build_qname (some u) ln m pref = .error .qnameErr := by
    intro m pref ln hm
    rcases pref with _ | p
    · show (match scanLoop m u true none (sortedKeys m) with
        | none => (Except.error EmitErr.qnameErr : Except EmitErr String)
        | some none => Except.ok ln
        | some (some q) => Except.ok (q ++ ":" ++ ln)) = Except.error EmitErr.qnameErr
      rw [scanLoop_of_no_match m u true none _ (fun k _ => hno m hm k)]
    · show (match (if dGet m p = some u then some p
            else scanLoop m u false none (sortedKeys m)) with
        | none => (Except.error EmitErr.qnameErr : Except EmitErr String)
        | some none => Except.ok ln
        | some (some q) => Except.ok (q ++ ":" ++ ln)) = Except.error EmitErr.qnameErr
      rw [if_neg (hno m hm p),
        scanLoop_of_no_match m u false none _ (fun k _ => hno m hm k)]
  refine ⟨hq pfxMap preferred local_name h, ?_, ?_⟩
  · intro P e rest er he
    rw [emitChildren, he]
  · intro P tag text tail nsmap epfx children l htag hm
    rw [emitNode]
    simp [htag, hq nsmap (some epfx) l hm]

/-- Witness for C4: with only `p → urn:a` visible, resolving `urn:b` fails,
and emitting an element tagged `{urn:b}e` fails the same way. -/
theorem c4_witness :
    build_qname (some "urn:b") "name" [(some "p", "urn:a")] none = .error .qnameErr ∧
    emitNode [] (.element (clark "urn:b" "e") [] none none
      [(some "p", "urn:a")] none []) = .error .qnameErr :=
  ⟨(c4_unbound_uri_raises "urn:b" "name" [(some "p", "urn:a")] none (by decide)).1,
   (c4_unbound_uri_raises "urn:b" "name" [(some "p", "urn:a")] none (by decide)).2.2
     [] (clark "urn:b" "e") none none [(some "p", "urn:a")] none [] "e"
     (by decide) (by decide)⟩

/-- C5: with the "-1" (no-preference) sentinel used for attribute names,
whenever some non-default prefix is bound to the URI the resolver returns
`prefix:localname` for such a prefix — never the bare local name — and the
bare local name is returned only when no non-default prefix is bound to
the URI (and the default is). -/
theorem c5_attr_resolution_avoids_default (u name : String)
    (m : List (Option String × String)) (hnd : nodupKeys m = true) :
    ((∃ p, (some p, u) ∈ m) →
      ∃ p, (some p, u) ∈ m ∧
        build_qname (some u) name m none = .ok (p ++ ":" ++ name) ∧
        build_qname (some u) name m none ≠ .ok name) ∧
    ((∀ p v, (some p, v) ∈ m → v ≠ u) → (none, u) ∈ m →
      build_qname (some u) name m none = .ok name) := by
  constructor
  · rintro ⟨p0, hp0⟩
    have hkey : some p0 ∈ sortedKeys m :=
      mem_sortedKeys.mpr (List.mem_map.mpr ⟨(some p0, u), hp0, rfl⟩)
    have hget : dGet m (some p0) = some u := dGet_of_mem_nodup hnd hp0
    obtain ⟨p, hscan, hgetp⟩ :=
      scanLoop_nondefault m u (sortedKeys m) none ⟨some p0, hkey, by simp, hget⟩
    have hbq : build_qname (some u) name m none = .ok (p ++ ":" ++ name) := by
      show (match scanLoop m u true none (sortedKeys m) with
        | none => (Except.error EmitErr.qnameErr : Except EmitErr String)
        | some none => Except.ok name
        | some (some q) => Except.ok (q ++ ":" ++ name)) = Except.ok (p ++ ":" ++ name)
      rw [hscan]
    refine ⟨p, mem_of_dGet hgetp, hbq, ?_⟩
    rw [hbq]
    intro hcontra
    have hs : p ++ ":" ++ name = name := by
      injection hcontra with h2
    have hlen := congrArg String.length hs
    rw [String.length_append, String.length_append] at hlen
    have hone : (":" : String).length = 1 := rfl
    rw [hone] at hlen
    omega
  · intro hnon hdef
    have hgetd : dGet m none = some u := dGet_of_mem_nodup hnd hdef
    have hall : ∀ k ∈ sortedKeys m, dGet m k = some u → k = none := by
      intro k hk hku
      rcases k with _ | p
      · rfl
      · exact absurd rfl (hnon p u (mem_of_dGet hku))
    have hmem : none ∈ sortedKeys m :=
      mem_sortedKeys.mpr (List.mem_map.mpr ⟨(none, u), hdef, rfl⟩)
    have hscan := scanLoop_default_only m u (sortedKeys m) none
      (sortedKeys_nodup (nodup_keys_of_nodupKeys hnd)) hall hmem hgetd
    show (match scanLoop m u true none (sortedKeys m) with
      | none => (Except.error EmitErr.qnameErr : Except EmitErr String)
      | some none => Except.ok name
      | some (some q) => Except.ok (q ++ ":" ++ name)) = Except.ok name
    rw [hscan]

/-- Witness for C5, the spec's own example: `{None: urn:a, p: urn:a}`
resolves an attribute in `urn:a` to `p:name`, and with only the default
binding the bare `name` is returned. -/
theorem c5_witness :
    (∃ p, (some p, "urn:a") ∈ [(none, "urn:a"), (some "p", "urn:a")] ∧
      build_qname (some "urn:a") "name" [(none, "urn:a"), (some "p", "urn:a")] none =
        .ok (p ++ ":" ++ "name") ∧
      build_qname (some "urn:a") "name" [(none, "urn:a"), (some "p", "urn:a")] none ≠
        .ok "name") ∧
    build_qname (some "urn:a") "name" [(none, "urn:a")] none = .ok "name" :=
  ⟨(c5_attr_resolution_avoids_default "urn:a" "name"
      [(none, "urn:a"), (some "p", "urn:a")] (by decide)).1 ⟨"p", by decide⟩,
   (c5_attr_resolution_avoids_default "urn:a" "name" [(none, "urn:a")] (by decide)).2
     (by intro p v h; simp at h) (by decide)⟩

theorem takeWhile_append_not {A : List SaxEvent}
    (hA : ∀ x ∈ A, isStartPfxEv x = true) {b : SaxEvent} (rest : List SaxEvent)
    (hb : isStartPfxEv b = false) :
    (A ++ b :: rest).takeWhile isStartPfxEv = A := by
  induction A with
  | nil => simp [List.takeWhile, hb]
  | cons a as ih =>
    rw [List.cons_append, List.takeWhile_cons, hA a (List.mem_cons_self _ _)]
    rw [ih (fun x hx => hA x (List.mem_cons_of_mem _ hx))]
    simp

/-- C6: a scope-start event is emitted at an element exactly for the pairs
of its namespace map whose value differs from, or is absent in, the
parent's map, and no event for a binding inherited unchanged; the scope
starts are precisely the leading events of the element's emission. -/
theorem c6_new_bindings_diffed (parentNs nsmap : List (Option String × String))
    (hnd : nodupKeys nsmap = true) :
    (∀ p u, (p, u) ∈ newPrefixes parentNs nsmap ↔
      ((p, u) ∈ nsmap ∧ dGet parentNs p ≠ some u)) ∧
    (∀ tag attrib text tail epfx children evs,
      emitNode parentNs (.element tag attrib text tail nsmap epfx children) = .ok evs →
      evs.takeWhile isStartPfxEv =
        (newPrefixes parentNs nsmap).map (fun pu => SaxEvent.startPrefixMapping pu.1 pu.2)) := by
  constructor
  · intro p u
    by_cases heq : nsmap = parentNs
    · subst heq
      rw [newPrefixes, if_pos rfl]
      simp only [List.not_mem_nil, false_iff]
      rintro ⟨hmem, hne⟩
      exact hne (dGet_of_mem_nodup hnd hmem)
    · rw [newPrefixes, if_neg heq, List.mem_filter]
      simp
  · intro tag attrib text tail epfx children evs hemit
    simp only [emitNode] at hemit
    split at hemit
    · exact absurd hemit (by simp)
    · split at hemit
      · exact absurd hemit (by simp)
      · split at hemit
        · exact absurd hemit (by simp)
        · split at hemit
          · exact absurd hemit (by simp)
          · rw [Except.ok.injEq] at hemit
            subst hemit
            refine takeWhile_append_not ?_ _ ?_
            · intro x hx
              obtain ⟨pu, _, hpu⟩ := List.mem_map.mp hx
              rw [← hpu]
              rfl
            · rfl

/-- Witness for C6: with parent map `{p: u1}` and element map
`{p: u1, q: u2}`, only the new `q` binding is a scope start, and the
element's emission starts with exactly that event. -/
theorem c6_witness :
    ((some "q", "u2") ∈ newPrefixes [(some "p", "u1")] [(some "p", "u1"), (some "q", "u2")] ↔
      ((some "q", "u2") ∈ [(some "p", "u1"), (some "q", "u2")] ∧
        dGet [(some "p", "u1")] (some "q") ≠ some "u2")) ∧
    ([SaxEvent.startPrefixMapping (some "q") "u2",
      SaxEvent.startElementNS (some "u1", "e") "p:e" [],
      SaxEvent.endElementNS (some "u1", "e") "p:e",
      SaxEvent.endPrefixMapping (some "q")].takeWhile isStartPfxEv =
      (newPrefixes [(some "p", "u1")] [(some "p", "u1"), (some "q", "u2")]).map
        (fun pu => SaxEvent.startPrefixMapping pu.1 pu.2)) :=
  ⟨(c6_new_bindings_diffed [(some "p", "u1")] [(some "p", "u1"), (some "q", "u2")]
      (by decide)).1 (some "q") "u2",
   (c6_new_bindings_diffed [(some "p", "u1")] [(some "p", "u1"), (some "q", "u2")]
      (by decide)).2 (clark "u1" "e") [] none none (some "p") [] _ rfl⟩

end QNameClaims

/-! ### Scope pairing (C2) -/

section ScopeClaims

open ElementTreeProducer

/-- A checker stack whose top is not a pending scope token: the shape the
stack has whenever the producer starts emitting a node. -/
def capped : List Tok → Bool
  | [] => true
  | .elemT :: _ => true
  | .pfxT _ :: _ => false

theorem runCheck2_append (a b : List SaxEvent) :
    ∀ st, runCheck2 st (a ++ b) =
      (match runCheck2 st a with
       | some st' => runCheck2 st' b
       | none => none) := by
  induction a with
  | nil => intro st; rfl
  | cons e es ih =>
    intro st
    cases e <;> simp only [List.cons_append, runCheck2]
    case endPrefixMapping p =>
      rcases popDeep p st with _ | st' <;> simp [ih]
    case startPrefixMapping p u =>
      simpa using ih (Tok.pfxT p :: st)
    case startElementNS n q a =>
      simpa using ih (Tok.elemT :: st)
    case endElementNS nsName q =>
      rcases st with _ | ⟨t, ts⟩
      · rfl
      · rcases t with r | _
        · rfl
        · simpa using ih ts
    all_goals simpa using ih st

theorem runCheck2_pushes (l : List (Option String × String)) :
    ∀ st, runCheck2 st (l.map (fun pu => SaxEvent.startPrefixMapping pu.1 pu.2)) =
      some ((l.map (fun pu => Tok.pfxT pu.1)).reverse ++ st) := by
  induction l with
  | nil => intro st; rfl
  | cons x xs ih =>
    intro st
    rw [List.map_cons, runCheck2, ih, List.map_cons, List.reverse_cons,
      List.append_assoc]
    rfl

theorem popDeep_through (ps : List (Option String)) (p : Option String) :
    ∀ st, capped st = true →
      popDeep p (ps.map Tok.pfxT ++ Tok.pfxT p :: st) =
        some (ps.map Tok.pfxT ++ st) := by
  induction ps with
  | nil =>
    intro st hc
    rcases st with _ | ⟨t, ts⟩
    · simp [popDeep]
    · rcases t with r | _
      · exact absurd hc (by simp [capped])
      · simp [popDeep]
  | cons q qs ih =>
    intro st hc
    rcases qs with _ | ⟨q2, qs2⟩
    · rcases st with _ | ⟨t, ts⟩
      · simp [popDeep]
      · rcases t with r | _
        · exact absurd hc (by simp [capped])
        · simp [popDeep]
    · have hih := ih st hc
      simp only [List.map_cons, List.cons_append] at hih ⊢
      rw [popDeep, hih]
      rfl

theorem runCheck2_pops (l : List (Option String × String)) :
    ∀ st, capped st = true →
      runCheck2 ((l.map (fun pu => Tok.pfxT pu.1)).reverse ++ st)
        (l.map (fun pu => SaxEvent.endPrefixMapping pu.1)) = some st := by
  induction l with
  | nil => intro st _; rfl
  | cons x xs ih =>
    intro st hc
    have hrw : (xs.map (fun pu => Tok.pfxT pu.1)).reverse
        = ((xs.map Prod.fst).reverse).map Tok.pfxT := by
      rw [List.map_reverse, List.map_map]
      rfl
    rw [List.map_cons, List.map_cons, List.reverse_cons, List.append_assoc,
      List.cons_append, List.nil_append, runCheck2, hrw,
      popDeep_through ((xs.map Prod.fst).reverse) x.1 st hc, ← hrw]
    exact ih st hc

theorem runCheck2_chars (st : List Tok) (x : Option String) :
    runCheck2 st (charsIfTruthy x) = some st := by
  rcases x with _ | sx
  · rfl
  · rw [charsIfTruthy]
    split <;> rfl

mutual

theorem check2Node : (e : Node) → ∀ (P : List (Option String × String)) evs,
    emitNode P e = .ok evs → ∀ st, capped st = true → runCheck2 st evs = some st
  | .comment x tail => by
    intro P evs hemit st hc
    simp only [emitNode, Except.ok.injEq] at hemit
    subst hemit
    exact runCheck2_chars st tail
  | .pi g x tail => by
    intro P evs hemit st hc
    simp only [emitNode, Except.ok.injEq] at hemit
    subst hemit
    exact runCheck2_chars st tail
  | .element tag attrib text tail nsmap epfx children => by
    intro P evs hemit st hc
    simp only [emitNode] at hemit
    split at hemit
    · exact absurd hemit (by simp)
    · split at hemit
      · exact absurd hemit (by simp)
      · split at hemit
        · exact absurd hemit (by simp)
        · split at hemit
          · exact absurd hemit (by simp)
          · rw [Except.ok.injEq] at hemit
            subst hemit
            rename_i childEvs hchild
            have hkids := check2Node.go children nsmap childEvs hchild
              (Tok.elemT ::
                (((newPrefixes P nsmap).map (fun pu => Tok.pfxT pu.1)).reverse ++ st)) rfl
            simp only [runCheck2_append, runCheck2_pushes, runCheck2,
              runCheck2_chars, hkids, runCheck2_pops _ _ hc]

theorem check2Node.go : (cs : List Node) → ∀ (P : List (Option String × String)) evs,
    emitChildren P cs = .ok evs → ∀ st, capped st = true → runCheck2 st evs = some st
  | [] => by
    intro P evs hemit st hc
    simp only [emitChildren, Except.ok.injEq] at hemit
    subst hemit
    rfl
  | c :: cs => by
    intro P evs hemit st hc
    rw [emitChildren] at hemit
    rcases h1 : emitNode P c with e1 | evs1 <;> rw [h1] at hemit
    · exact absurd hemit (by simp)
    · rcases h2 : emitChildren P cs with e2 | evs2 <;> rw [h2] at hemit
      · exact absurd hemit (by simp)
      · simp only [Except.ok.injEq] at hemit
        subst hemit
        rw [runCheck2_append, check2Node c P evs1 h1 st hc]
        show runCheck2 st evs2 = some st
        exact check2Node.go cs P evs2 h2 st hc

end

/-- C2 as stated is false on the code: scope-end events for an element's
new bindings are emitted in the SAME order as the scope starts, not in
reverse, so with two new bindings the strict-LIFO pairing checker rejects
the emitted stream.  Concretely, an element declaring `p → u1` and
`q → u2` emits `endPrefixMapping(p)` before `endPrefixMapping(q)`. -/
def c2root : Node :=
  .element (clark "u1" "r") [] none none
    [(some "p", "u1"), (some "q", "u2")] (some "p") []

theorem c2_counterexample :
    ElementTreeProducer.saxifyDoc ⟨[], c2root, []⟩ =
      .ok [.startDocument,
           .startPrefixMapping (some "p") "u1",
           .startPrefixMapping (some "q") "u2",
           .startElementNS (some "u1", "r") "p:r" [],
           .endElementNS (some "u1", "r") "p:r",
           .endPrefixMapping (some "p"),
           .endPrefixMapping (some "q"),
           .endDocument] ∧
    runCheck [] [.startDocument,
           .startPrefixMapping (some "p") "u1",
           .startPrefixMapping (some "q") "u2",
           .startElementNS (some "u1", "r") "p:r" [],
           .endElementNS (some "u1", "r") "p:r",
           .endPrefixMapping (some "p"),
           .endPrefixMapping (some "q"),
           .endDocument] = none :=
  ⟨rfl, rfl⟩

/-- C2 (amended): in every event sequence the producer emits, each
scope-start has exactly one matching scope-end, emitted after the
corresponding element-end and properly bracketed against element
start/end events, but an element's scope-ends appear in the SAME order as
its scope-starts (first started, first ended), not reversed: the stream
is accepted by the checker that always closes the earliest-started
pending scope of the current run. -/
theorem c2_scope_pairing_same_order (d : Doc) (evs : List SaxEvent)
    (h : ElementTreeProducer.saxifyDoc d = .ok evs) :
    runCheck2 [] evs = some [] := by
  rw [ElementTreeProducer.saxifyDoc] at h
  rcases h1 : emitChildren [] ((d.leading.reverse.takeWhile isPiNode).reverse)
      with e1 | pre <;> rw [h1] at h
  · exact absurd h (by simp)
  · rcases h2 : emitNode [] d.root with e2 | mid <;> rw [h2] at h
    · exact absurd h (by simp)
    · rcases h3 : emitChildren [] (d.trailing.takeWhile isPiNode)
          with e3 | post <;> rw [h3] at h
      · exact absurd h (by simp)
      · simp only [Except.ok.injEq] at h
        subst h
        simp only [runCheck2]
        rw [List.append_assoc, List.append_assoc]
        rw [runCheck2_append, check2Node.go _ _ _ h1 [] rfl]
        show runCheck2 [] (mid ++ (post ++ [SaxEvent.endDocument])) = some []
        rw [runCheck2_append, check2Node _ _ _ h2 [] rfl]
        show runCheck2 [] (post ++ [SaxEvent.endDocument]) = some []
        rw [runCheck2_append, check2Node.go _ _ _ h3 [] rfl]
        rfl

/-- Witness for the amended C2 on the two-binding element: the emitted
stream passes the same-order pairing checker. -/
theorem c2_amended_witness :
    runCheck2 [] [.startDocument,
           .startPrefixMapping (some "p") "u1",
           .startPrefixMapping (some "q") "u2",
           .startElementNS (some "u1", "r") "p:r" [],
           .endElementNS (some "u1", "r") "p:r",
           .endPrefixMapping (some "p"),
           .endPrefixMapping (some "q"),
           .endDocument] = some [] :=
  c2_scope_pairing_same_order ⟨[], c2root, []⟩ _ rfl

end ScopeClaims

/-! ### Builder simulation: namespace stacks -/

section RoundTripProof

open ElementTreeProducer ElementTreeContentHandler

theorem dGet_cons_eq {α β : Type} [DecidableEq α] {rest : List (α × β)} {p : α × β} {k : α}
    (h : p.1 = k) : dGet (p :: rest) k = some p.2 := by
  rcases p with ⟨a, b⟩
  dsimp at h
  subst h
  exact dGet_cons_self

theorem dGet_dSet_self {α β : Type} [DecidableEq α] (m : List (α × β)) (k : α) (v : β) :
    dGet (dSet m k v) k = some v := by
  by_cases h : m.any (fun p => decide (p.1 = k)) = true
  · rw [dSet, if_pos h]
    induction m with
    | nil => simp at h
    | cons p rest ih =>
      rw [List.map_cons]
      by_cases hp : p.1 = k
      · rw [if_pos hp]
        exact dGet_cons_self
      · rw [if_neg hp, dGet_cons_ne hp]
        apply ih
        simp only [List.any_cons, Bool.or_eq_true, decide_eq_true_eq] at h
        rcases h with h | h
        · exact absurd h hp
        · exact h
  · rw [dSet, if_neg h]
    induction m with
    | nil => exact dGet_cons_self
    | cons p rest ih =>
      simp only [List.any_cons, Bool.or_eq_true, decide_eq_true_eq, not_or] at h
      rw [List.cons_append, dGet_cons_ne h.1]
      exact ih (by simpa using h.2)

theorem dGet_dSet_ne {α β : Type} [DecidableEq α] (m : List (α × β)) (k q : α) (v : β)
    (hq : q ≠ k) : dGet (dSet m k v) q = dGet m q := by
  by_cases h : m.any (fun p => decide (p.1 = k)) = true
  · rw [dSet, if_pos h]
    clear h
    induction m with
    | nil => rfl
    | cons p rest ih =>
      rw [List.map_cons]
      by_cases hp : p.1 = k
      · rw [if_pos hp]
        rw [dGet_cons_ne (by simpa using (hq ∘ Eq.symm) : ((k, v) : α × β).1 ≠ q)]
        rw [dGet_cons_ne (fun e => hq (e.symm.trans hp))]
        exact ih
      · rw [if_neg hp]
        by_cases hpq : p.1 = q
        · rw [dGet_cons_eq hpq, dGet_cons_eq hpq]
        · rw [dGet_cons_ne hpq, dGet_cons_ne hpq]
          exact ih
  · rw [dSet, if_neg h]
    clear h
    induction m with
    | nil =>
      rw [List.nil_append]
      rw [dGet_cons_ne (by simpa using (hq ∘ Eq.symm) : ((k, v) : α × β).1 ≠ q)]
    | cons p rest ih =>
      by_cases hpq : p.1 = q
      · rw [List.cons_append, dGet_cons_eq hpq, dGet_cons_eq hpq]
      · rw [List.cons_append, dGet_cons_ne hpq, dGet_cons_ne hpq]
        exact ih

/-- The URI stack a prefix currently has in `_ns_mapping` (empty when the
prefix was never bound; Python leaves empty lists behind after pops, which
this view identifies with absent keys). -/
def stkOf (m : List (Option String × List (Option String))) (p : Option String) :
    List (Option String) :=
  (dGet m p).getD []

/-- Push a pending binding on a stack view. -/
def optCons (o : Option String) (st : List (Option String)) : List (Option String) :=
  match o with
  | some u => some u :: st
  | none => st

theorem dGet_of_stkOf_cons {m : List (Option String × List (Option String))}
    {p : Option String} {a : Option String} {b : List (Option String)}
    (h : stkOf m p = a :: b) : dGet m p = some (a :: b) := by
  rcases hx : dGet m p with _ | l
  · rw [stkOf, hx] at h; exact absurd h (by simp)
  · rw [stkOf, hx, Option.getD_some] at h
    rw [h]

theorem stkOf_push (s : HState) (p : Option String) (u : String) (q : Option String) :
    stkOf (startPrefixMapping s p u).nsMapping q =
      (if q = p then some u :: stkOf s.nsMapping p else stkOf s.nsMapping q) := by
  have hstk : (match dGet s.nsMapping p with
      | some l => some u :: l
      | none => [some u]) = some u :: stkOf s.nsMapping p := by
    rcases h : dGet s.nsMapping p with _ | l <;> simp [stkOf, h]
  show stkOf (dSet s.nsMapping p _) q = _
  by_cases hq : q = p
  · subst hq
    rw [if_pos rfl, stkOf, dGet_dSet_self, hstk]
    rfl
  · rw [if_neg hq, stkOf, dGet_dSet_ne _ _ _ _ hq]
    rfl

theorem push_fields (s : HState) (p : Option String) (u : String) :
    (startPrefixMapping s p u).stack = s.stack ∧
    (startPrefixMapping s p u).hasRoot = s.hasRoot ∧
    (startPrefixMapping s p u).root = s.root ∧
    (startPrefixMapping s p u).rootSiblings = s.rootSiblings ∧
    (startPrefixMapping s p u).leading = s.leading ∧
    (startPrefixMapping s p u).defaultNs =
      (if p = none then some u else s.defaultNs) :=
  ⟨rfl, rfl, rfl, rfl, rfl, rfl⟩

/-- Fold of `startPrefixMapping` over a binding list, as the handler
processes the scope-start events an element emits. -/
def pushAll (s : HState) (l : List (Option String × String)) : HState :=
  l.foldl (fun t pu => startPrefixMapping t pu.1 pu.2) s

/-- The default namespace after pushing a binding list. -/
def pushedDefault (l : List (Option String × String)) (d : Option String) :
    Option String :=
  match dGet l none with
  | some u => some u
  | none => d

theorem run_pushes (l : List (Option String × String)) :
    ∀ (s : HState) (rest : List SaxEvent),
      run s (l.map (fun pu => SaxEvent.startPrefixMapping pu.1 pu.2) ++ rest) =
        run (pushAll s l) rest := by
  induction l with
  | nil => intro s rest; rfl
  | cons x xs ih =>
    intro s rest
    rw [List.map_cons, List.cons_append,
      run_cons_ok (show step s (.startPrefixMapping x.1 x.2) =
        .ok (startPrefixMapping s x.1 x.2) from rfl)]
    exact ih (startPrefixMapping s x.1 x.2) rest

theorem pushAll_fields (l : List (Option String × String)) :
    ∀ (s : HState),
      (pushAll s l).stack = s.stack ∧
      (pushAll s l).hasRoot = s.hasRoot ∧
      (pushAll s l).root = s.root ∧
      (pushAll s l).rootSiblings = s.rootSiblings ∧
      (pushAll s l).leading = s.leading := by
  induction l with
  | nil => intro s; exact ⟨rfl, rfl, rfl, rfl, rfl⟩
  | cons x xs ih =>
    intro s
    exact ih (startPrefixMapping s x.1 x.2)

theorem pushAll_stkOf (l : List (Option String × String)) :
    ∀ (s : HState), nodupKeys l = true → ∀ q,
      stkOf (pushAll s l).nsMapping q =
        optCons (dGet l q) (stkOf s.nsMapping q) := by
  induction l with
  | nil => intro s _ q; rfl
  | cons x xs ih =>
    intro s hnd q
    simp only [nodupKeys, Bool.and_eq_true, Bool.not_eq_true', List.any_eq_false,
      decide_eq_false_iff_not] at hnd
    have hrec := ih (startPrefixMapping s x.1 x.2) hnd.2 q
    rw [pushAll, List.foldl_cons] at *
    by_cases hq : q = x.1
    · have hxs : dGet xs q = none := by
        apply dGet_eq_none
        intro v hv
        exact absurd (decide_eq_true hq) (hnd.1 (q, v) hv)
      rw [show (List.foldl (fun t pu => startPrefixMapping t pu.1 pu.2)
          (startPrefixMapping s x.1 x.2) xs) = pushAll (startPrefixMapping s x.1 x.2) xs
          from rfl] at *
      rw [hrec, hxs, dGet_cons_eq hq.symm, stkOf_push, if_pos hq, hq]
      simp [optCons]
    · have hl : dGet (x :: xs) q = dGet xs q := dGet_cons_ne (fun e => hq e.symm)
      rw [show (List.foldl (fun t pu => startPrefixMapping t pu.1 pu.2)
          (startPrefixMapping s x.1 x.2) xs) = pushAll (startPrefixMapping s x.1 x.2) xs
          from rfl] at *
      rw [hrec, hl, stkOf_push, if_neg hq]

theorem pushAll_defaultNs (l : List (Option String × String)) :
    ∀ (s : HState), nodupKeys l = true →
      (pushAll s l).defaultNs = pushedDefault l s.defaultNs := by
  induction l with
  | nil => intro s _; rfl
  | cons x xs ih =>
    intro s hnd
    simp only [nodupKeys, Bool.and_eq_true, Bool.not_eq_true', List.any_eq_false,
      decide_eq_false_iff_not] at hnd
    have hrec := ih (startPrefixMapping s x.1 x.2) hnd.2
    rw [pushAll, List.foldl_cons,
      show (List.foldl (fun t pu => startPrefixMapping t pu.1 pu.2)
        (startPrefixMapping s x.1 x.2) xs) = pushAll (startPrefixMapping s x.1 x.2) xs
        from rfl, hrec]
    by_cases hx : x.1 = none
    · have hxs : dGet xs none = none := by
        apply dGet_eq_none
        intro v hv
        exact absurd (decide_eq_true hx.symm) (hnd.1 (none, v) hv)
      rw [pushedDefault, pushedDefault, hxs, dGet_cons_eq hx]
      show (startPrefixMapping s x.1 x.2).defaultNs = some x.2
      show (if x.1 = none then some x.2 else s.defaultNs) = some x.2
      rw [if_pos hx]
    · rw [pushedDefault, pushedDefault, dGet_cons_ne hx]
      rcases dGet xs none with _ | u
      · show (startPrefixMapping s x.1 x.2).defaultNs = s.defaultNs
        show (if x.1 = none then some x.2 else s.defaultNs) = s.defaultNs
        rw [if_neg hx]
      · rfl

theorem pushedDefault_no_none {l : List (Option String × String)} (d : Option String)
    (h : dGet l none = none) : pushedDefault l d = d := by
  rw [pushedDefault, h]

theorem run_pops (l : List (Option String × String)) :
    ∀ (t base : HState) (rest : List SaxEvent),
      nodupKeys l = true →
      (∀ q, stkOf t.nsMapping q = optCons (dGet l q) (stkOf base.nsMapping q)) →
      (stkOf base.nsMapping none).head? = some base.defaultNs →
      t.defaultNs = pushedDefault l base.defaultNs →
      ∃ M, run t (l.map (fun pu => SaxEvent.endPrefixMapping pu.1) ++ rest) =
          run { t with nsMapping := M, defaultNs := base.defaultNs } rest ∧
        (∀ q, stkOf M q = stkOf base.nsMapping q) := by
  induction l with
  | nil =>
    intro t base rest _ hstk hhead hdef
    have hd2 : t.defaultNs = base.defaultNs := hdef
    refine ⟨t.nsMapping, ?_, fun q => hstk q⟩
    rw [List.map_nil, List.nil_append, ← hd2]
  | cons x xs ih =>
    intro t base rest hnd hstk hhead hdef
    simp only [nodupKeys, Bool.and_eq_true, Bool.not_eq_true', List.any_eq_false] at hnd
    have hxs_x : dGet xs x.1 = none := by
      apply dGet_eq_none
      intro v hv
      exact (hnd.1 (x.1, v) hv) (decide_eq_true rfl)
    have hstk_x : stkOf t.nsMapping x.1 = some x.2 :: stkOf base.nsMapping x.1 := by
      have h0 := hstk x.1
      rw [dGet_cons_eq rfl] at h0
      exact h0
    have hdget_t : dGet t.nsMapping x.1 =
        some (some x.2 :: stkOf base.nsMapping x.1) := dGet_of_stkOf_cons hstk_x
    rcases hx1 : x.1 with _ | px
    · -- popping the default prefix restores the previous default
      rcases hS : stkOf base.nsMapping none with _ | ⟨top, S2⟩
      · rw [hS] at hhead; exact absurd hhead (by simp)
      · have htop : top = base.defaultNs := by
          rw [hS] at hhead
          simpa using hhead
        rw [hx1] at hdget_t hxs_x
        rw [hS] at hdget_t
        have hstep : step t (.endPrefixMapping none) =
            .ok { t with nsMapping := dSet t.nsMapping none (top :: S2),
                         defaultNs := top } := by
          show endPrefixMapping t none = _
          rw [endPrefixMapping, hdget_t]
          rfl
        have ht1 : ∀ q, stkOf (dSet t.nsMapping none (top :: S2)) q =
            optCons (dGet xs q) (stkOf base.nsMapping q) := by
          intro q
          by_cases hq : q = none
          · subst hq
            rw [stkOf, dGet_dSet_self, Option.getD_some, hxs_x, hS]
            rfl
          · rw [stkOf, dGet_dSet_ne _ _ _ _ hq]
            have h0 := hstk q
            rw [dGet_cons_ne (fun e => hq (e.symm.trans hx1))] at h0
            exact h0
        have hdef1 : top = pushedDefault xs base.defaultNs := by
          rw [pushedDefault_no_none _ hxs_x, htop]
        obtain ⟨M, hrun, hM⟩ := ih
          { t with nsMapping := dSet t.nsMapping none (top :: S2), defaultNs := top }
          base rest hnd.2 ht1 hhead hdef1
        refine ⟨M, ?_, hM⟩
        rw [List.map_cons, List.cons_append, hx1, run_cons_ok hstep, hrun]
    · -- popping a non-default prefix leaves the default untouched
      rw [hx1] at hdget_t hxs_x
      have hstep : step t (.endPrefixMapping (some px)) =
          .ok { t with
            nsMapping := dSet t.nsMapping (some px) (stkOf base.nsMapping (some px)) } := by
        show endPrefixMapping t (some px) = _
        rw [endPrefixMapping, hdget_t]
        rfl
      have ht1 : ∀ q, stkOf (dSet t.nsMapping (some px) (stkOf base.nsMapping (some px))) q =
          optCons (dGet xs q) (stkOf base.nsMapping q) := by
        intro q
        by_cases hq : q = some px
        · subst hq
          rw [stkOf, dGet_dSet_self, Option.getD_some, hxs_x]
          rfl
        · rw [stkOf, dGet_dSet_ne _ _ _ _ hq]
          have h0 := hstk q
          rw [dGet_cons_ne (fun e => hq (e.symm.trans hx1))] at h0
          exact h0
      have hdef1 : t.defaultNs = pushedDefault xs base.defaultNs := by
        rw [hdef, pushedDefault, pushedDefault,
          dGet_cons_ne (show x.1 ≠ none from fun e => by
            rw [hx1] at e; exact Option.noConfusion e)]
      obtain ⟨M, hrun, hM⟩ := ih
        { t with nsMapping := dSet t.nsMapping (some px) (stkOf base.nsMapping (some px)) }
        base rest hnd.2 ht1 hhead hdef1
      refine ⟨M, ?_, hM⟩
      rw [List.map_cons, List.cons_append, hx1, run_cons_ok hstep, hrun]

theorem scanLoop_acc_some (m : List (Option String × String)) (u : String) (f : Bool) :
    ∀ keys (x : Option String), scanLoop m u f (some x) keys ≠ none := by
  intro keys
  induction keys with
  | nil => intro x h; exact Option.noConfusion h
  | cons k rest ih =>
    intro x
    rw [scanLoop]
    by_cases h0 : dGet m k = some u
    · rw [if_pos h0]
      split
      · exact ih none
      · intro h; exact Option.noConfusion h
    · rw [if_neg h0]
      exact ih x

theorem scanLoop_ne_none (m : List (Option String × String)) (u : String) (f : Bool) :
    ∀ keys (acc : Option (Option String)),
      (∃ k ∈ keys, dGet m k = some u) → scanLoop m u f acc keys ≠ none := by
  intro keys
  induction keys with
  | nil => rintro acc ⟨k, hk, _⟩; simp at hk
  | cons k0 rest ih =>
    rintro acc ⟨k, hk, hku⟩
    by_cases h0 : dGet m k0 = some u
    · rw [scanLoop, if_pos h0]
      split
      · exact scanLoop_acc_some m u f rest none
      · intro h; exact Option.noConfusion h
    · rw [scanLoop, if_neg h0]
      apply ih
      refine ⟨k, ?_, hku⟩
      rcases List.mem_cons.mp hk with h1 | h1
      · exact absurd (h1 ▸ hku) h0
      · exact h1

theorem build_qname_ok_of_bound (u l : String) (m : List (Option String × String))
    (pref : Option (Option String)) (hnd : nodupKeys m = true)
    (h : ∃ pu ∈ m, pu.2 = u) :
    ∃ q, build_qname (some u) l m pref = .ok q := by
  obtain ⟨pu, hpu, hval⟩ := h
  have hex : ∃ k ∈ sortedKeys m, dGet m k = some u := by
    refine ⟨pu.1, mem_sortedKeys.mpr (List.mem_map.mpr ⟨pu, hpu, rfl⟩), ?_⟩
    rw [show pu = (pu.1, pu.2) from rfl] at hpu
    rw [dGet_of_mem_nodup hnd hpu, hval]
  rcases pref with _ | p
  · rcases hsc : scanLoop m u true none (sortedKeys m) with _ | pres
    · exact absurd hsc (scanLoop_ne_none m u true (sortedKeys m) none hex)
    · rcases pres with _ | px
      · refine ⟨l, ?_⟩
        show (match scanLoop m u true none (sortedKeys m) with
          | none => (Except.error EmitErr.qnameErr : Except EmitErr String)
          | some none => Except.ok l
          | some (some q) => Except.ok (q ++ ":" ++ l)) = Except.ok l
        rw [hsc]
      · refine ⟨px ++ ":" ++ l, ?_⟩
        show (match scanLoop m u true none (sortedKeys m) with
          | none => (Except.error EmitErr.qnameErr : Except EmitErr String)
          | some none => Except.ok l
          | some (some q) => Except.ok (q ++ ":" ++ l)) = Except.ok (px ++ ":" ++ l)
        rw [hsc]
  · by_cases hp : dGet m p = some u
    · rcases p with _ | px
      · refine ⟨l, ?_⟩
        show (match (if dGet m none = some u then some (none : Option String)
            else scanLoop m u false none (sortedKeys m)) with
          | none => (Except.error EmitErr.qnameErr : Except EmitErr String)
          | some none => Except.ok l
          | some (some q) => Except.ok (q ++ ":" ++ l)) = Except.ok l
        rw [if_pos hp]
      · refine ⟨px ++ ":" ++ l, ?_⟩
        show (match (if dGet m (some px) = some u then some (some px)
            else scanLoop m u false none (sortedKeys m)) with
          | none => (Except.error EmitErr.qnameErr : Except EmitErr String)
          | some none => Except.ok l
          | some (some q) => Except.ok (q ++ ":" ++ l)) = Except.ok (px ++ ":" ++ l)
        rw [if_pos hp]
    · rcases hsc : scanLoop m u false none (sortedKeys m) with _ | pres
      · exact absurd hsc (scanLoop_ne_none m u false (sortedKeys m) none hex)
      · rcases pres with _ | px
        · refine ⟨l, ?_⟩
          show (match (if dGet m p = some u then some p
              else scanLoop m u false none (sortedKeys m)) with
            | none => (Except.error EmitErr.qnameErr : Except EmitErr String)
            | some none => Except.ok l
            | some (some q) => Except.ok (q ++ ":" ++ l)) = Except.ok l
          rw [if_neg hp, hsc]
        · refine ⟨px ++ ":" ++ l, ?_⟩
          show (match (if dGet m p = some u then some p
              else scanLoop m u false none (sortedKeys m)) with
            | none => (Except.error EmitErr.qnameErr : Except EmitErr String)
            | some none => Except.ok l
            | some (some q) => Except.ok (q ++ ":" ++ l)) = Except.ok (px ++ ":" ++ l)
          rw [if_neg hp, hsc]

/-- The (uri?, localname) pair `_recursive_saxify` derives for a name. -/
def parseName (n : String) : Option String × String := (getNsTag n).getD (none, n)

theorem parseName_eq {n : String} {t : Option String × String}
    (h : getNsTag n = some t) : parseName n = t := by
  rw [parseName, h]
  rfl

theorem formatName_parseName {m : List (Option String × String)} {n : String}
    (hwf : wfAttrName m n = true) : formatName (parseName n) = n := by
  rcases hnt : getNsTag n with _ | ⟨u?, l⟩
  · rw [wfAttrName, hnt] at hwf
    exact absurd hwf (by simp)
  · rw [parseName_eq hnt]
    rcases u? with _ | u
    · simp only [formatName]
      exact getNsTag_plain_recover hnt
    · rw [wfAttrName, hnt] at hwf
      simp only [Bool.and_eq_true] at hwf
      simp only [formatName]
      rw [if_pos hwf.1]
      exact (getNsTag_ns_recover hnt).1.symm

theorem dGet_ne_none_of_mem {α β : Type} [DecidableEq α] {m : List (α × β)} {k : α} {v : β}
    (h : (k, v) ∈ m) : dGet m k ≠ none := by
  intro hn
  induction m with
  | nil => simp at h
  | cons p rest ih =>
    by_cases hp : p.1 = k
    · rw [dGet_cons_eq hp] at hn
      exact Option.noConfusion hn
    · rw [dGet_cons_ne hp] at hn
      rcases List.mem_cons.mp h with h1 | h1
      · exact hp (by rw [← h1])
      · exact ih h1 hn

theorem dGet_append_none {α β : Type} [DecidableEq α] {a : List (α × β)} {k t : α} {v : β}
    (ha : dGet a k = none) (hk : k ≠ t) : dGet (a ++ [(t, v)]) k = none := by
  apply dGet_eq_none
  intro w hw
  rcases List.mem_append.mp hw with h1 | h1
  · exact dGet_ne_none_of_mem h1 ha
  · simp at h1
    exact hk h1.1

theorem emitAttrs_ok (nsmap : List (Option String × String)) (hnd : nodupKeys nsmap = true) :
    ∀ (ab : List (String × String)) (acc : List ((Option String × String) × String)),
      (∀ nv ∈ ab, wfAttrName nsmap nv.1 = true) →
      (∀ nv ∈ ab, dGet acc (parseName nv.1) = none) →
      (ab.map Prod.fst).Nodup →
      emitAttrs nsmap ab acc = .ok (acc ++ ab.map (fun nv => (parseName nv.1, nv.2))) := by
  intro ab
  induction ab with
  | nil => intro acc _ _ _; simp [emitAttrs]
  | cons nv rest ih =>
    intro acc hall hacc hnodup
    rcases nv with ⟨n, v⟩
    have hwf := hall (n, v) (List.mem_cons_self _ _)
    rcases hnt : getNsTag n with _ | t
    · rw [wfAttrName, hnt] at hwf
      exact absurd hwf (by simp)
    · rw [emitAttrs, hnt]
      have hq : ∃ q, build_qname t.1 t.2 nsmap none = .ok q := by
        rcases t with ⟨u?, l⟩
        rcases u? with _ | u
        · exact ⟨l, rfl⟩
        · have hwf2 := hwf
          rw [wfAttrName, hnt] at hwf2
          simp only [Bool.and_eq_true, List.any_eq_true, beq_iff_eq] at hwf2
          obtain ⟨pu, hpu, hval⟩ := hwf2.2
          exact build_qname_ok_of_bound u l nsmap none hnd ⟨pu, hpu, hval⟩
      obtain ⟨q, hqe⟩ := hq
      show (match build_qname t.1 t.2 nsmap none with
        | Except.error e => Except.error e
        | Except.ok _ => emitAttrs nsmap rest (dSet acc t v)) = _
      rw [hqe]
      have hpn : parseName n = t := parseName_eq hnt
      have hset : dSet acc t v = acc ++ [(t, v)] := by
        apply dSet_append
        rw [← hpn]
        exact hacc (n, v) (List.mem_cons_self _ _)
      rw [hset]
      rw [List.map_cons, List.nodup_cons] at hnodup
      have hres := ih (acc ++ [(t, v)])
        (fun x hx => hall x (List.mem_cons_of_mem _ hx))
        (fun x hx => by
          apply dGet_append_none (hacc x (List.mem_cons_of_mem _ hx))
          intro he
          have h1 : x.1 = formatName t := by
            rw [← he]
            exact (formatName_parseName (hall x (List.mem_cons_of_mem _ hx))).symm
          have h2 : formatName t = n := by
            rw [← hpn]
            exact formatName_parseName hwf
          exact hnodup.1 (List.mem_map.mpr ⟨x, hx, h1.trans h2⟩))
        hnodup.2
      rw [hres, List.map_cons, hpn]
      rw [List.append_assoc]
      rfl

theorem buildAttrsDict_ok :
    ∀ (ts : List ((Option String × String) × String)) (acc : List (String × String)),
      (∀ x ∈ ts, dGet acc (formatName x.1) = none) →
      (ts.map (fun x => formatName x.1)).Nodup →
      buildAttrsDict ts acc = acc ++ ts.map (fun x => (formatName x.1, x.2)) := by
  intro ts
  induction ts with
  | nil => intro acc _ _; simp [buildAttrsDict]
  | cons x rest ih =>
    intro acc hacc hnodup
    rcases x with ⟨nt, v⟩
    rw [buildAttrsDict]
    have hset : dSet acc (formatName nt) v = acc ++ [(formatName nt, v)] :=
      dSet_append _ (hacc (nt, v) (List.mem_cons_self _ _))
    rw [hset]
    rw [List.map_cons, List.nodup_cons] at hnodup
    have hres := ih (acc ++ [(formatName nt, v)])
      (fun y hy => by
        apply dGet_append_none (hacc y (List.mem_cons_of_mem _ hy))
        intro he
        exact hnodup.1 (he ▸ List.mem_map.mpr ⟨y, hy, rfl⟩))
      hnodup.2
    rw [hres, List.map_cons, List.append_assoc]
    rfl

theorem isEmpty_false_of_ne {t : String} (h : t ≠ "") : t.isEmpty = false := by
  rcases ht : t.isEmpty
  · rfl
  · exact absurd ((String.isEmpty_iff t).mp ht) h

theorem nodupKeys_filter {α β : Type} [DecidableEq α] (pred : α × β → Bool) :
    ∀ (l : List (α × β)), nodupKeys l = true → nodupKeys (l.filter pred) = true := by
  intro l
  induction l with
  | nil => intro _; rfl
  | cons p rest ih =>
    intro h
    simp only [nodupKeys, Bool.and_eq_true, Bool.not_eq_true', List.any_eq_false] at h
    rw [List.filter_cons]
    split
    · simp only [nodupKeys, Bool.and_eq_true, Bool.not_eq_true', List.any_eq_false]
      refine ⟨?_, ih h.2⟩
      intro x hx
      exact h.1 x (List.mem_of_mem_filter hx)
    · exact ih h.2

theorem newPrefixes_nodup (P nsmap : List (Option String × String))
    (h : nodupKeys nsmap = true) : nodupKeys (newPrefixes P nsmap) = true := by
  rw [newPrefixes]
  split
  · rfl
  · exact nodupKeys_filter _ nsmap h

theorem mem_newPrefixes {P nsmap : List (Option String × String)}
    {p : Option String} {u : String} (h : (p, u) ∈ newPrefixes P nsmap) :
    (p, u) ∈ nsmap ∧ dGet P p ≠ some u := by
  rw [newPrefixes] at h
  split at h
  · simp at h
  · have h2 := List.mem_filter.mp h
    refine ⟨h2.1, ?_⟩
    simpa using h2.2

theorem pushedDefault_newPrefixes (P nsmap : List (Option String × String))
    (hnd : nodupKeys nsmap = true)
    (himpl : (dGet nsmap none ≠ none || dGet P none == none) = true) :
    pushedDefault (newPrefixes P nsmap) (dGet P none) = dGet nsmap none := by
  rcases hg : dGet (newPrefixes P nsmap) none with _ | u
  · rw [pushedDefault, hg]
    rcases hnn : dGet nsmap none with _ | v
    · rw [hnn] at himpl
      simpa using himpl
    · have hmemv : (none, v) ∈ nsmap := mem_of_dGet hnn
      by_cases hPv : dGet P none = some v
      · exact hPv
      · have hmemNew : (none, v) ∈ newPrefixes P nsmap := by
          rw [newPrefixes]
          by_cases heq : nsmap = P
          · exact absurd (heq ▸ hnn) hPv
          · rw [if_neg heq]
            exact List.mem_filter.mpr ⟨hmemv, by simpa using hPv⟩
        exact absurd hg (dGet_ne_none_of_mem hmemNew)
  · rw [pushedDefault, hg]
    have h2 := (mem_newPrefixes (mem_of_dGet hg)).1
    exact (dGet_of_mem_nodup hnd h2).symm

theorem eqvNode_element_same (tag : String) (attrib : List (String × String))
    (text tail : Option String) (m1 m2 : List (Option String × String))
    (p1 p2 : Option String) (c1 c2 : List Node) (hc : eqvList c1 c2 = true) :
    eqvNode (.element tag attrib text tail m1 p1 c1)
      (.element tag attrib text tail m2 p2 c2) = true := by
  rw [eqvNode]
  simp [hc]

theorem eqvNode_pi_same (g : String) (x tail : Option String) :
    eqvNode (.pi g x tail) (.pi g x tail) = true := by
  rw [eqvNode]
  simp

theorem startElementNS_cons (s : HState) (fr : Frame) (rest : List Frame)
    (nsName : Option String × String) (q : String)
    (attrs : List ((Option String × String) × String))
    (hroot : s.hasRoot = true) (hstack : s.stack = fr :: rest) :
    step s (.startElementNS nsName q attrs) = .ok { s with
      stack := { ftag := buildTag s.defaultNs nsName,
                 fattrib := if attrs.isEmpty then [] else buildAttrsDict attrs [],
                 fnsdecls := s.newMappings, ftext := none, fchildren := [] } :: fr :: rest,
      newMappings := [] } := by
  show startElementNS s nsName attrs = _
  rw [startElementNS, hroot]
  simp only [if_true, hstack]

theorem startElementNS_root (s : HState) (nsName : Option String × String) (q : String)
    (attrs : List ((Option String × String) × String)) (hroot : s.hasRoot = false) :
    step s (.startElementNS nsName q attrs) = .ok { s with
      hasRoot := true,
      stack := [{ ftag := buildTag s.defaultNs nsName,
                  fattrib := if attrs.isEmpty then [] else buildAttrsDict attrs [],
                  fnsdecls := s.newMappings, ftext := none, fchildren := [] }],
      leading := s.rootSiblings, rootSiblings := [], newMappings := [] } := by
  show startElementNS s nsName attrs = _
  rw [startElementNS, hroot]
  simp only [Bool.false_eq_true, if_false]

theorem endElementNS_ok_cons (s : HState) (fr p : Frame) (ps : List Frame)
    (nsName : Option String × String) (q : String)
    (hstack : s.stack = fr :: p :: ps)
    (htag : buildTag s.defaultNs nsName = fr.ftag) :
    step s (.endElementNS nsName q) = .ok { s with
      stack := { p with fchildren := p.fchildren ++ [finishNode fr] } :: ps } := by
  show endElementNS s nsName = _
  rw [endElementNS, hstack]
  simp only [htag]
  rw [if_neg (by simp : ¬fr.ftag ≠ fr.ftag)]

theorem endElementNS_ok_root (s : HState) (fr : Frame)
    (nsName : Option String × String) (q : String)
    (hstack : s.stack = [fr])
    (htag : buildTag s.defaultNs nsName = fr.ftag) :
    step s (.endElementNS nsName q) = .ok { s with
      stack := [],
      root := some (finishNode fr) } := by
  show endElementNS s nsName = _
  rw [endElementNS, hstack]
  simp only [htag]
  rw [if_neg (by simp : ¬fr.ftag ≠ fr.ftag)]

theorem processingInstruction_cons (s : HState) (fr : Frame) (rest : List Frame)
    (g : String) (dt : Option String)
    (hroot : s.hasRoot = true) (hstack : s.stack = fr :: rest) :
    step s (.processingInstruction g dt) = .ok { s with
      stack := { fr with fchildren := fr.fchildren ++ [Node.pi g dt none] } :: rest } := by
  show processingInstruction s g dt = _
  rw [processingInstruction, hroot]
  simp only [if_true, hstack]

theorem processingInstruction_buffer (s : HState) (g : String) (dt : Option String)
    (hroot : s.hasRoot = false) :
    step s (.processingInstruction g dt) = .ok { s with
      rootSiblings := s.rootSiblings ++ [Node.pi g dt none] } := by
  show processingInstruction s g dt = _
  rw [processingInstruction, hroot]
  simp only [Bool.false_eq_true, if_false]

theorem setTail_none_of_tail_none {c : Node} (h : getTail c = none) :
    setTail c none = c := by
  rcases c with ⟨t1, a1, x1, l1, m1, p1, c1⟩ | ⟨x1, l1⟩ | ⟨g1, x1, l1⟩ <;>
    (dsimp [getTail] at h; dsimp [setTail]; rw [h])

theorem charsIfTruthy_some {t : String} (h : t ≠ "") :
    charsIfTruthy (some t) = [.characters t] := by
  rw [charsIfTruthy, isEmpty_false_of_ne h]
  rfl

theorem run_chars_text_fresh (s : HState) (fr : Frame) (rest : List Frame)
    (x : Option String) (hx : x ≠ some "") (hstack : s.stack = fr :: rest)
    (hft : fr.ftext = none) (hnil : fr.fchildren.getLast? = none) (X : List SaxEvent) :
    run s (charsIfTruthy x ++ X) =
      run { s with stack := { fr with ftext := x } :: rest } X := by
  rcases x with _ | t
  · have hfr : ({ fr with ftext := none } : Frame) = fr := by
      rcases fr with ⟨a, b, c, d, e⟩
      dsimp at hft ⊢
      rw [hft]
    show run s X = _
    rw [hfr, ← hstack]
  · have ht : t ≠ "" := fun e => hx (by rw [e])
    rw [charsIfTruthy_some ht, List.cons_append,
      run_cons_ok (characters_cons_none s fr rest t hstack hnil), hft]
    rfl

theorem run_chars_tail_last (s : HState) (fr : Frame) (rest : List Frame)
    (c : Node) (x : Option String) (hx : x ≠ some "")
    (hstack : s.stack = fr :: rest)
    (hlast : fr.fchildren.getLast? = some c) (hct : getTail c = none)
    (hdrop : fr.fchildren.dropLast ++ [c] = fr.fchildren)
    (X : List SaxEvent) :
    run s (charsIfTruthy x ++ X) =
      run { s with stack :=
        { fr with fchildren := fr.fchildren.dropLast ++ [setTail c x] } :: rest } X := by
  rcases x with _ | t
  · have hc2 : setTail c none = c := setTail_none_of_tail_none hct
    show run s X = _
    rw [hc2, hdrop]
    have hfr : ({ fr with fchildren := fr.fchildren } : Frame) = fr := rfl
    rw [hfr, ← hstack]
  · have ht : t ≠ "" := fun e => hx (by rw [e])
    rw [charsIfTruthy_some ht, List.cons_append,
      run_cons_ok (characters_cons_last s fr rest c t hstack hlast), hct]
    rfl

theorem run_ok_append (t : HState) (evs : List SaxEvent) (s2 : HState)
    (h : run t evs = .ok s2) : ∀ rest, run t (evs ++ rest) = run s2 rest := by
  intro rest
  rw [run_append, h]

theorem pushAll_head_inv (l : List (Option String × String)) (s : HState)
    (hnd : nodupKeys l = true)
    (hhead : (stkOf s.nsMapping none).head? = some s.defaultNs) :
    (stkOf (pushAll s l).nsMapping none).head? = some (pushAll s l).defaultNs := by
  rw [pushAll_stkOf l s hnd none, pushAll_defaultNs l s hnd]
  simp only [pushedDefault]
  rcases h : dGet l none with _ | u
  · exact hhead
  · rfl

theorem takeWhile_all {α : Type} (p : α → Bool) :
    ∀ (l : List α), (∀ x ∈ l, p x = true) → l.takeWhile p = l := by
  intro l
  induction l with
  | nil => intro _; rfl
  | cons a as ih =>
    intro h
    rw [List.takeWhile_cons, h a (List.mem_cons_self a as),
      ih (fun x hx => h x (List.mem_cons_of_mem a hx))]
    rfl

theorem eqvList_self_of_pis :
    ∀ (ps : List Node), (∀ n ∈ ps, ∃ g x, n = Node.pi g x none) →
      eqvList ps ps = true := by
  intro ps
  induction ps with
  | nil => intro _; rfl
  | cons p ps ih =>
    intro h
    obtain ⟨g, x, hp⟩ := h p (List.mem_cons_self p ps)
    subst hp
    simp only [eqvList, Bool.and_eq_true]
    exact ⟨eqvNode_pi_same g x none,
      ih (fun n hn => h n (List.mem_cons_of_mem _ hn))⟩

/-- Frame constructor shorthand for the simulation proofs. -/
def mkFrame (t : String) (ab : List (String × String))
    (nm : List (Option String × String)) (x : Option String) (cs : List Node) : Frame :=
  { ftag := t, fattrib := ab, fnsdecls := nm, ftext := x, fchildren := cs }

/-- State constructor shorthand: replace the stack, default namespace,
namespace stacks and pending-mapping dict of a state. -/
def withStack (s : HState) (st : List Frame) (d : Option String)
    (m : List (Option String × List (Option String)))
    (nm : List (Option String × String)) : HState :=
  { s with stack := st, defaultNs := d, nsMapping := m, newMappings := nm }

mutual

/-- Builder simulation: feeding the events `_recursive_saxify` emits for a
lossless node to a handler with an open element appends exactly one
equivalent child to that open element, leaves the scope stacks as they
were, and leaves every other state component unchanged. -/
theorem simNode : (e : Node) → ∀ (P : List (Option String × String)) (s : HState)
    (fr : Frame) (rest : List Frame),
    wfNode P e = true → s.hasRoot = true → s.stack = fr :: rest →
    s.newMappings = [] → s.defaultNs = dGet P none →
    (stkOf s.nsMapping none).head? = some s.defaultNs →
    ∃ evs n M, emitNode P e = .ok evs ∧ eqvNode n e = true ∧
      (∀ q, stkOf M q = stkOf s.nsMapping q) ∧
      ∀ rest2, run s (evs ++ rest2) =
        run { s with stack := { fr with fchildren := fr.fchildren ++ [n] } :: rest,
                     nsMapping := M } rest2
  | .comment x tail => by
    intro P s fr rest hwf _ _ _ _ _
    exact absurd hwf (by simp [wfNode])
  | .pi g x tail => by
    intro P s fr rest hwf hroot hstack _ _ _
    have hxt : tail ≠ some "" := of_decide_eq_true hwf
    refine ⟨_, Node.pi g x tail, s.nsMapping, rfl, eqvNode_pi_same g x tail,
      fun q => rfl, fun rest2 => ?_⟩
    rw [List.cons_append,
      run_cons_ok (processingInstruction_cons s fr rest g x hroot hstack)]
    have h := run_chars_tail_last
      { s with stack := { fr with fchildren := fr.fchildren ++ [Node.pi g x none] } :: rest }
      { fr with fchildren := fr.fchildren ++ [Node.pi g x none] }
      rest (Node.pi g x none) tail hxt rfl (List.getLast?_concat _) rfl
      (by show (fr.fchildren ++ [Node.pi g x none]).dropLast ++ [Node.pi g x none] =
            fr.fchildren ++ [Node.pi g x none]
          rw [List.dropLast_concat]) rest2
    simp only [List.dropLast_concat] at h
    exact h
  | .element tag attrib text tail nsmap epfx children => by
    intro P s fr rest hwf hroot hstack hnewm hdef hhead
    simp only [wfNode, Bool.and_eq_true] at hwf
    obtain ⟨⟨⟨⟨⟨⟨⟨hwtag, hwnd⟩, hwimpl⟩, hwattrs⟩, hwandp⟩, hwtext⟩, hwtail⟩, hwkids⟩ := hwf
    rcases hnt : getNsTag tag with _ | ⟨u?, l⟩
    · simp only [wfTag, hnt, Bool.false_eq_true] at hwtag
    · have hall : ∀ nv ∈ attrib, wfAttrName nsmap nv.1 = true :=
        fun nv hnv => List.all_eq_true.mp hwattrs nv hnv
      have hA : (if attrib.isEmpty then
            (Except.ok [] : Except EmitErr (List ((Option String × String) × String)))
          else emitAttrs nsmap attrib []) =
          Except.ok (attrib.map (fun nv => (parseName nv.1, nv.2))) := by
        by_cases hae : attrib.isEmpty = true
        · rw [if_pos hae, List.isEmpty_iff.mp hae]
          rfl
        · rw [if_neg hae]
          exact emitAttrs_ok nsmap hwnd attrib [] hall (fun nv hnv => rfl)
            (nodup_keys_of_nodupKeys hwandp)
      have hkey : (attrib.map (fun nv => (parseName nv.1, nv.2))).map
            (fun x => formatName x.1) = attrib.map Prod.fst := by
        rw [List.map_map]
        exact List.map_congr_left (fun nv hnv => formatName_parseName (hall nv hnv))
      have hbd : buildAttrsDict (attrib.map (fun nv => (parseName nv.1, nv.2))) [] =
          attrib := by
        rw [buildAttrsDict_ok (attrib.map (fun nv => (parseName nv.1, nv.2))) []
          (fun x hx => rfl) (by rw [hkey]; exact nodup_keys_of_nodupKeys hwandp)]
        rw [List.nil_append, List.map_map]
        have hid : ∀ nv ∈ attrib,
            ((fun (x : (Option String × String) × String) => (formatName x.1, x.2)) ∘
              (fun (nv : String × String) => (parseName nv.1, nv.2))) nv = id nv := by
          intro nv hnv
          show (formatName (parseName nv.1), nv.2) = nv
          rw [formatName_parseName (hall nv hnv)]
        rw [List.map_congr_left hid, List.map_id]
      have attrEq : (if (attrib.map (fun nv => (parseName nv.1, nv.2))).isEmpty then
            ([] : List (String × String))
          else buildAttrsDict (attrib.map (fun nv => (parseName nv.1, nv.2))) []) =
          attrib := by
        rcases hca : attrib with _ | ⟨nv0, atl⟩
        · rfl
        · rw [hca] at hbd
          have hne : ((nv0 :: atl).map (fun nv => (parseName nv.1, nv.2))).isEmpty = false :=
            rfl
          rw [hne, if_neg Bool.false_ne_true]
          exact hbd
      have tagEq : buildTag (dGet nsmap none) (u?, l) = tag := by
        rcases u? with _ | u
        · simp only [wfTag, hnt, Bool.and_eq_true, beq_iff_eq] at hwtag
          show buildTagNoNs (dGet nsmap none) l = tag
          rw [hwtag.1]
          exact getNsTag_plain_recover hnt
        · simp only [wfTag, hnt, Bool.and_eq_true] at hwtag
          show (if !u.isEmpty then clark u l else buildTagNoNs (dGet nsmap none) l) = tag
          rw [if_pos hwtag.1]
          exact (getNsTag_ns_recover hnt).1.symm
      have hq : ∃ q, build_qname u? l nsmap (some epfx) = .ok q := by
        rcases u? with _ | u
        · exact ⟨l, rfl⟩
        · simp only [wfTag, hnt, Bool.and_eq_true] at hwtag
          obtain ⟨pu, hpu, hval⟩ := List.any_eq_true.mp hwtag.2
          exact build_qname_ok_of_bound u l nsmap (some epfx) hwnd
            ⟨pu, hpu, by simpa using hval⟩
      obtain ⟨qname, hqe⟩ := hq
      have hndNew : nodupKeys (newPrefixes P nsmap) = true := newPrefixes_nodup P nsmap hwnd
      have hs1def : (pushAll s (newPrefixes P nsmap)).defaultNs = dGet nsmap none := by
        have h := pushAll_defaultNs (newPrefixes P nsmap) s hndNew
        rw [hdef, pushedDefault_newPrefixes P nsmap hwnd hwimpl] at h
        exact h
      have hroot1 : (pushAll s (newPrefixes P nsmap)).hasRoot = true :=
        ((pushAll_fields (newPrefixes P nsmap) s).2.1).trans hroot
      have hstack1 : (pushAll s (newPrefixes P nsmap)).stack = fr :: rest :=
        ((pushAll_fields (newPrefixes P nsmap) s).1).trans hstack
      have hstart2 : step (pushAll s (newPrefixes P nsmap))
          (SaxEvent.startElementNS (u?, l) qname
            (attrib.map (fun nv => (parseName nv.1, nv.2)))) =
          Except.ok (withStack (pushAll s (newPrefixes P nsmap))
            (mkFrame tag attrib (pushAll s (newPrefixes P nsmap)).newMappings none [] ::
              fr :: rest)
            (dGet nsmap none) (pushAll s (newPrefixes P nsmap)).nsMapping []) := by
        have h := startElementNS_cons (pushAll s (newPrefixes P nsmap)) fr rest (u?, l)
          qname (attrib.map (fun nv => (parseName nv.1, nv.2))) hroot1 hstack1
        rw [hs1def, tagEq, attrEq] at h
        exact h
      have htext : ∀ X, run (withStack (pushAll s (newPrefixes P nsmap))
            (mkFrame tag attrib (pushAll s (newPrefixes P nsmap)).newMappings none [] ::
              fr :: rest)
            (dGet nsmap none) (pushAll s (newPrefixes P nsmap)).nsMapping [])
          (charsIfTruthy text ++ X) =
          run (withStack (pushAll s (newPrefixes P nsmap))
            (mkFrame tag attrib (pushAll s (newPrefixes P nsmap)).newMappings text [] ::
              fr :: rest)
            (dGet nsmap none) (pushAll s (newPrefixes P nsmap)).nsMapping []) X := by
        intro X
        exact run_chars_text_fresh _
          (mkFrame tag attrib (pushAll s (newPrefixes P nsmap)).newMappings none [])
          (fr :: rest) text (of_decide_eq_true hwtext) rfl rfl rfl X
      obtain ⟨childEvs, ns, M1, hemitC, heqvC, hM1, hchildrun⟩ :=
        simKids children nsmap
          (withStack (pushAll s (newPrefixes P nsmap))
            (mkFrame tag attrib (pushAll s (newPrefixes P nsmap)).newMappings text [] ::
              fr :: rest)
            (dGet nsmap none) (pushAll s (newPrefixes P nsmap)).nsMapping [])
          (mkFrame tag attrib (pushAll s (newPrefixes P nsmap)).newMappings text [])
          (fr :: rest) hwkids hroot1 rfl rfl rfl
          (by have h := pushAll_head_inv (newPrefixes P nsmap) s hndNew hhead
              rw [hs1def] at h
              exact h)
      have hchild2 : ∀ X, run (withStack (pushAll s (newPrefixes P nsmap))
            (mkFrame tag attrib (pushAll s (newPrefixes P nsmap)).newMappings text [] ::
              fr :: rest)
            (dGet nsmap none) (pushAll s (newPrefixes P nsmap)).nsMapping [])
          (childEvs ++ X) =
          run (withStack (pushAll s (newPrefixes P nsmap))
            (mkFrame tag attrib (pushAll s (newPrefixes P nsmap)).newMappings text ns ::
              fr :: rest)
            (dGet nsmap none) M1 []) X :=
        hchildrun
      have hendstep : step (withStack (pushAll s (newPrefixes P nsmap))
            (mkFrame tag attrib (pushAll s (newPrefixes P nsmap)).newMappings text ns ::
              fr :: rest)
            (dGet nsmap none) M1 [])
          (SaxEvent.endElementNS (u?, l) qname) =
          Except.ok (withStack (pushAll s (newPrefixes P nsmap))
            ({ fr with fchildren := fr.fchildren ++
              [finishNode (mkFrame tag attrib
                (pushAll s (newPrefixes P nsmap)).newMappings text ns)] } :: rest)
            (dGet nsmap none) M1 []) :=
        endElementNS_ok_cons _
          (mkFrame tag attrib (pushAll s (newPrefixes P nsmap)).newMappings text ns)
          fr rest (u?, l) qname rfl tagEq
      have hstk5 : ∀ q, stkOf M1 q =
          optCons (dGet (newPrefixes P nsmap) q) (stkOf s.nsMapping q) :=
        fun q => (hM1 q).trans (pushAll_stkOf (newPrefixes P nsmap) s hndNew q)
      have hdef5 : (dGet nsmap none : Option String) =
          pushedDefault (newPrefixes P nsmap) s.defaultNs := by
        rw [hdef]
        exact (pushedDefault_newPrefixes P nsmap hwnd hwimpl).symm
      obtain ⟨M2, hp, hM2⟩ := run_pops (newPrefixes P nsmap)
        (withStack (pushAll s (newPrefixes P nsmap))
          ({ fr with fchildren := fr.fchildren ++
            [finishNode (mkFrame tag attrib
              (pushAll s (newPrefixes P nsmap)).newMappings text ns)] } :: rest)
          (dGet nsmap none) M1 [])
        s [] hndNew hstk5 hhead hdef5
      have hpops0 : run (withStack (pushAll s (newPrefixes P nsmap))
            ({ fr with fchildren := fr.fchildren ++
              [finishNode (mkFrame tag attrib
                (pushAll s (newPrefixes P nsmap)).newMappings text ns)] } :: rest)
            (dGet nsmap none) M1 [])
          ((newPrefixes P nsmap).map (fun pu => SaxEvent.endPrefixMapping pu.1)) =
          Except.ok (withStack (pushAll s (newPrefixes P nsmap))
            ({ fr with fchildren := fr.fchildren ++
              [finishNode (mkFrame tag attrib
                (pushAll s (newPrefixes P nsmap)).newMappings text ns)] } :: rest)
            s.defaultNs M2 []) := by
        rw [List.append_nil] at hp
        exact hp
      have hpops : ∀ X, run (withStack (pushAll s (newPrefixes P nsmap))
            ({ fr with fchildren := fr.fchildren ++
              [finishNode (mkFrame tag attrib
                (pushAll s (newPrefixes P nsmap)).newMappings text ns)] } :: rest)
            (dGet nsmap none) M1 [])
          ((newPrefixes P nsmap).map (fun pu => SaxEvent.endPrefixMapping pu.1) ++ X) =
          run (withStack (pushAll s (newPrefixes P nsmap))
            ({ fr with fchildren := fr.fchildren ++
              [finishNode (mkFrame tag attrib
                (pushAll s (newPrefixes P nsmap)).newMappings text ns)] } :: rest)
            s.defaultNs M2 []) X :=
        run_ok_append _ _ _ hpops0
      have htail : ∀ X, run (withStack (pushAll s (newPrefixes P nsmap))
            ({ fr with fchildren := fr.fchildren ++
              [finishNode (mkFrame tag attrib
                (pushAll s (newPrefixes P nsmap)).newMappings text ns)] } :: rest)
            s.defaultNs M2 [])
          (charsIfTruthy tail ++ X) =
          run (withStack (pushAll s (newPrefixes P nsmap))
            ({ fr with fchildren := fr.fchildren ++
              [setTail (finishNode (mkFrame tag attrib
                (pushAll s (newPrefixes P nsmap)).newMappings text ns)) tail] } :: rest)
            s.defaultNs M2 []) X := by
        intro X
        have h := run_chars_tail_last
          (withStack (pushAll s (newPrefixes P nsmap))
            ({ fr with fchildren := fr.fchildren ++
              [finishNode (mkFrame tag attrib
                (pushAll s (newPrefixes P nsmap)).newMappings text ns)] } :: rest)
            s.defaultNs M2 [])
          { fr with fchildren := fr.fchildren ++
            [finishNode (mkFrame tag attrib
              (pushAll s (newPrefixes P nsmap)).newMappings text ns)] } rest
          (finishNode (mkFrame tag attrib
            (pushAll s (newPrefixes P nsmap)).newMappings text ns)) tail
          (of_decide_eq_true hwtail) rfl (List.getLast?_concat _) rfl
          (by show (fr.fchildren ++
                [finishNode (mkFrame tag attrib
                  (pushAll s (newPrefixes P nsmap)).newMappings text ns)]).dropLast ++
                [finishNode (mkFrame tag attrib
                  (pushAll s (newPrefixes P nsmap)).newMappings text ns)] =
                fr.fchildren ++
                [finishNode (mkFrame tag attrib
                  (pushAll s (newPrefixes P nsmap)).newMappings text ns)]
              rw [List.dropLast_concat]) X
        simp only [List.dropLast_concat] at h
        exact h
      have hemit : emitNode P (Node.element tag attrib text tail nsmap epfx children) =
          Except.ok
            ((newPrefixes P nsmap).map (fun pu => SaxEvent.startPrefixMapping pu.1 pu.2) ++
              SaxEvent.startElementNS (u?, l) qname
                  (attrib.map (fun nv => (parseName nv.1, nv.2))) ::
                (charsIfTruthy text ++ childEvs ++
                  SaxEvent.endElementNS (u?, l) qname ::
                    ((newPrefixes P nsmap).map (fun pu => SaxEvent.endPrefixMapping pu.1) ++
                      charsIfTruthy tail))) := by
        simp only [emitNode, hA, hnt, hqe, hemitC]
      have hfinal : withStack (pushAll s (newPrefixes P nsmap))
          ({ fr with fchildren := fr.fchildren ++
            [setTail (finishNode (mkFrame tag attrib
              (pushAll s (newPrefixes P nsmap)).newMappings text ns)) tail] } :: rest)
          s.defaultNs M2 [] =
          withStack s
          ({ fr with fchildren := fr.fchildren ++
            [setTail (finishNode (mkFrame tag attrib
              (pushAll s (newPrefixes P nsmap)).newMappings text ns)) tail] } :: rest)
          s.defaultNs M2 s.newMappings := by
        obtain ⟨g1, g2, g3, g4, g5⟩ := pushAll_fields (newPrefixes P nsmap) s
        simp only [withStack, g2, g3, g4, g5, hnewm]
      refine ⟨_, setTail (finishNode (mkFrame tag attrib
          (pushAll s (newPrefixes P nsmap)).newMappings text ns)) tail, M2,
        hemit, ?_, ?_, fun rest2 => ?_⟩
      · exact eqvNode_element_same tag attrib text tail
          (pushAll s (newPrefixes P nsmap)).newMappings nsmap none epfx ns children heqvC
      · exact fun q => hM2 q
      · simp only [List.append_assoc, List.cons_append]
        rw [run_pushes (newPrefixes P nsmap) s, run_cons_ok hstart2, htext, hchild2,
          run_cons_ok hendstep, hpops, htail]
        exact congrArg (fun t => run t rest2) hfinal

/-- Builder simulation over a child list. -/
theorem simKids : (cs : List Node) → ∀ (P : List (Option String × String)) (s : HState)
    (fr : Frame) (rest : List Frame),
    wfChildren P cs = true → s.hasRoot = true → s.stack = fr :: rest →
    s.newMappings = [] → s.defaultNs = dGet P none →
    (stkOf s.nsMapping none).head? = some s.defaultNs →
    ∃ evs ns M, emitChildren P cs = .ok evs ∧ eqvList ns cs = true ∧
      (∀ q, stkOf M q = stkOf s.nsMapping q) ∧
      ∀ rest2, run s (evs ++ rest2) =
        run { s with stack := { fr with fchildren := fr.fchildren ++ ns } :: rest,
                     nsMapping := M } rest2
  | [] => by
    intro P s fr rest _ _ hstack _ _ _
    refine ⟨[], [], s.nsMapping, rfl, rfl, fun q => rfl, fun rest2 => ?_⟩
    have hfr : ({ fr with fchildren := fr.fchildren ++ [] } : Frame) = fr := by
      rw [List.append_nil]
    rw [hfr, ← hstack]
    rfl
  | c :: cs => by
    intro P s fr rest hwf hroot hstack hnewm hdef hhead
    simp only [wfChildren, Bool.and_eq_true] at hwf
    obtain ⟨evs1, n1, M1, hemit1, heqv1, hM1, hrun1⟩ :=
      simNode c P s fr rest hwf.1 hroot hstack hnewm hdef hhead
    obtain ⟨evs2, ns2, M2, hemit2, heqv2, hM2, hrun2⟩ :=
      simKids cs P
        { s with stack := { fr with fchildren := fr.fchildren ++ [n1] } :: rest,
                 nsMapping := M1 }
        { fr with fchildren := fr.fchildren ++ [n1] } rest hwf.2 hroot rfl hnewm hdef
        (by have h : (stkOf M1 none).head? = some s.defaultNs := by
              rw [hM1 none]
              exact hhead
            exact h)
    refine ⟨evs1 ++ evs2, n1 :: ns2, M2, ?_, ?_, ?_, fun rest2 => ?_⟩
    · simp only [emitChildren, hemit1, hemit2]
    · simp only [eqvList, Bool.and_eq_true]
      exact ⟨heqv1, heqv2⟩
    · exact fun q => (hM2 q).trans (hM1 q)
    · rw [List.append_assoc, hrun1 (evs2 ++ rest2), hrun2 rest2]
      show run (withStack s
          ({ fr with fchildren := (fr.fchildren ++ [n1]) ++ ns2 } :: rest)
          s.defaultNs M2 s.newMappings) rest2 =
        run (withStack s
          ({ fr with fchildren := fr.fchildren ++ (n1 :: ns2) } :: rest)
          s.defaultNs M2 s.newMappings) rest2
      rw [List.append_assoc, List.singleton_append]

end

/-- State shorthand for the root simulation: root known, no pending
siblings, explicit stack, leading list, default namespace, scope stacks
and pending mappings. -/
def rootedState (s : HState) (n? : Option Node) (st : List Frame) (ld : List Node)
    (d : Option String) (m : List (Option String × List (Option String)))
    (nm : List (Option String × String)) : HState :=
  { s with hasRoot := true, root := n?, stack := st, leading := ld,
           rootSiblings := [], defaultNs := d, nsMapping := m, newMappings := nm }

/-- Builder simulation at the root: the events emitted for a lossless
tail-free root element build that element as the handler's root, attach
the buffered leading siblings, and empty the sibling buffer. -/
theorem simRoot (tag : String) (attrib : List (String × String)) (text : Option String)
    (nsmap : List (Option String × String)) (epfx : Option String) (children : List Node)
    (s : HState)
    (hwf : wfNode [] (Node.element tag attrib text none nsmap epfx children) = true)
    (hroot : s.hasRoot = false)
    (hnewm : s.newMappings = []) (hdef : s.defaultNs = none)
    (hhead : (stkOf s.nsMapping none).head? = some s.defaultNs) :
    ∃ evs n M,
      emitNode [] (Node.element tag attrib text none nsmap epfx children) = .ok evs ∧
      eqvNode n (Node.element tag attrib text none nsmap epfx children) = true ∧
      ∀ rest2, run s (evs ++ rest2) =
        run { s with hasRoot := true, root := some n, stack := [],
                     leading := s.rootSiblings, rootSiblings := [],
                     nsMapping := M } rest2 := by
  have hdef2 : s.defaultNs = dGet ([] : List (Option String × String)) none := hdef
  simp only [wfNode, Bool.and_eq_true] at hwf
  obtain ⟨⟨⟨⟨⟨⟨⟨hwtag, hwnd⟩, hwimpl⟩, hwattrs⟩, hwandp⟩, hwtext⟩, hwtail⟩, hwkids⟩ := hwf
  rcases hnt : getNsTag tag with _ | ⟨u?, l⟩
  · simp only [wfTag, hnt, Bool.false_eq_true] at hwtag
  · have hall : ∀ nv ∈ attrib, wfAttrName nsmap nv.1 = true :=
      fun nv hnv => List.all_eq_true.mp hwattrs nv hnv
    have hA : (if attrib.isEmpty then
          (Except.ok [] : Except EmitErr (List ((Option String × String) × String)))
        else emitAttrs nsmap attrib []) =
        Except.ok (attrib.map (fun nv => (parseName nv.1, nv.2))) := by
      by_cases hae : attrib.isEmpty = true
      · rw [if_pos hae, List.isEmpty_iff.mp hae]
        rfl
      · rw [if_neg hae]
        exact emitAttrs_ok nsmap hwnd attrib [] hall (fun nv hnv => rfl)
          (nodup_keys_of_nodupKeys hwandp)
    have hkey : (attrib.map (fun nv => (parseName nv.1, nv.2))).map
          (fun x => formatName x.1) = attrib.map Prod.fst := by
      rw [List.map_map]
      exact List.map_congr_left (fun nv hnv => formatName_parseName (hall nv hnv))
    have hbd : buildAttrsDict (attrib.map (fun nv => (parseName nv.1, nv.2))) [] =
        attrib := by
      rw [buildAttrsDict_ok (attrib.map (fun nv => (parseName nv.1, nv.2))) []
        (fun x hx => rfl) (by rw [hkey]; exact nodup_keys_of_nodupKeys hwandp)]
      rw [List.nil_append, List.map_map]
      have hid : ∀ nv ∈ attrib,
          ((fun (x : (Option String × String) × String) => (formatName x.1, x.2)) ∘
            (fun (nv : String × String) => (parseName nv.1, nv.2))) nv = id nv := by
        intro nv hnv
        show (formatName (parseName nv.1), nv.2) = nv
        rw [formatName_parseName (hall nv hnv)]
      rw [List.map_congr_left hid, List.map_id]
    have attrEq : (if (attrib.map (fun nv => (parseName nv.1, nv.2))).isEmpty then
          ([] : List (String × String))
        else buildAttrsDict (attrib.map (fun nv => (parseName nv.1, nv.2))) []) =
        attrib := by
      rcases hca : attrib with _ | ⟨nv0, atl⟩
      · rfl
      · rw [hca] at hbd
        have hne : ((nv0 :: atl).map (fun nv => (parseName nv.1, nv.2))).isEmpty = false :=
          rfl
        rw [hne, if_neg Bool.false_ne_true]
        exact hbd
    have tagEq : buildTag (dGet nsmap none) (u?, l) = tag := by
      rcases u? with _ | u
      · simp only [wfTag, hnt, Bool.and_eq_true, beq_iff_eq] at hwtag
        show buildTagNoNs (dGet nsmap none) l = tag
        rw [hwtag.1]
        exact getNsTag_plain_recover hnt
      · simp only [wfTag, hnt, Bool.and_eq_true] at hwtag
        show (if !u.isEmpty then clark u l else buildTagNoNs (dGet nsmap none) l) = tag
        rw [if_pos hwtag.1]
        exact (getNsTag_ns_recover hnt).1.symm
    have hq : ∃ q, build_qname u? l nsmap (some epfx) = .ok q := by
      rcases u? with _ | u
      · exact ⟨l, rfl⟩
      · simp only [wfTag, hnt, Bool.and_eq_true] at hwtag
        obtain ⟨pu, hpu, hval⟩ := List.any_eq_true.mp hwtag.2
        exact build_qname_ok_of_bound u l nsmap (some epfx) hwnd
          ⟨pu, hpu, by simpa using hval⟩
    obtain ⟨qname, hqe⟩ := hq
    have hndNew : nodupKeys (newPrefixes [] nsmap) = true := newPrefixes_nodup [] nsmap hwnd
    have hs1def : (pushAll s (newPrefixes [] nsmap)).defaultNs = dGet nsmap none := by
      have h := pushAll_defaultNs (newPrefixes [] nsmap) s hndNew
      rw [hdef2, pushedDefault_newPrefixes [] nsmap hwnd hwimpl] at h
      exact h
    have hroot0 : (pushAll s (newPrefixes [] nsmap)).hasRoot = false :=
      ((pushAll_fields (newPrefixes [] nsmap) s).2.1).trans hroot
    have hstart2 : step (pushAll s (newPrefixes [] nsmap))
        (SaxEvent.startElementNS (u?, l) qname
          (attrib.map (fun nv => (parseName nv.1, nv.2)))) =
        Except.ok (rootedState (pushAll s (newPrefixes [] nsmap))
          (pushAll s (newPrefixes [] nsmap)).root
          [mkFrame tag attrib (pushAll s (newPrefixes [] nsmap)).newMappings none []]
          (pushAll s (newPrefixes [] nsmap)).rootSiblings
          (dGet nsmap none) (pushAll s (newPrefixes [] nsmap)).nsMapping []) := by
      have h := startElementNS_root (pushAll s (newPrefixes [] nsmap)) (u?, l)
        qname (attrib.map (fun nv => (parseName nv.1, nv.2))) hroot0
      rw [hs1def, tagEq, attrEq] at h
      exact h
    have htext : ∀ X, run (rootedState (pushAll s (newPrefixes [] nsmap))
          (pushAll s (newPrefixes [] nsmap)).root
          [mkFrame tag attrib (pushAll s (newPrefixes [] nsmap)).newMappings none []]
          (pushAll s (newPrefixes [] nsmap)).rootSiblings
          (dGet nsmap none) (pushAll s (newPrefixes [] nsmap)).nsMapping [])
        (charsIfTruthy text ++ X) =
        run (rootedState (pushAll s (newPrefixes [] nsmap))
          (pushAll s (newPrefixes [] nsmap)).root
          [mkFrame tag attrib (pushAll s (newPrefixes [] nsmap)).newMappings text []]
          (pushAll s (newPrefixes [] nsmap)).rootSiblings
          (dGet nsmap none) (pushAll s (newPrefixes [] nsmap)).nsMapping []) X := by
      intro X
      exact run_chars_text_fresh _
        (mkFrame tag attrib (pushAll s (newPrefixes [] nsmap)).newMappings none [])
        [] text (of_decide_eq_true hwtext) rfl rfl rfl X
    obtain ⟨childEvs, ns, M1, hemitC, heqvC, hM1, hchildrun⟩ :=
      simKids children nsmap
        (rootedState (pushAll s (newPrefixes [] nsmap))
          (pushAll s (newPrefixes [] nsmap)).root
          [mkFrame tag attrib (pushAll s (newPrefixes [] nsmap)).newMappings text []]
          (pushAll s (newPrefixes [] nsmap)).rootSiblings
          (dGet nsmap none) (pushAll s (newPrefixes [] nsmap)).nsMapping [])
        (mkFrame tag attrib (pushAll s (newPrefixes [] nsmap)).newMappings text [])
        [] hwkids rfl rfl rfl rfl
        (by have h := pushAll_head_inv (newPrefixes [] nsmap) s hndNew hhead
            rw [hs1def] at h
            exact h)
    have hchild2 : ∀ X, run (rootedState (pushAll s (newPrefixes [] nsmap))
          (pushAll s (newPrefixes [] nsmap)).root
          [mkFrame tag attrib (pushAll s (newPrefixes [] nsmap)).newMappings text []]
          (pushAll s (newPrefixes [] nsmap)).rootSiblings
          (dGet nsmap none) (pushAll s (newPrefixes [] nsmap)).nsMapping [])
        (childEvs ++ X) =
        run (rootedState (pushAll s (newPrefixes [] nsmap))
          (pushAll s (newPrefixes [] nsmap)).root
          [mkFrame tag attrib (pushAll s (newPrefixes [] nsmap)).newMappings text ns]
          (pushAll s (newPrefixes [] nsmap)).rootSiblings
          (dGet nsmap none) M1 []) X :=
      hchildrun
    have hendstep : step (rootedState (pushAll s (newPrefixes [] nsmap))
          (pushAll s (newPrefixes [] nsmap)).root
          [mkFrame tag attrib (pushAll s (newPrefixes [] nsmap)).newMappings text ns]
          (pushAll s (newPrefixes [] nsmap)).rootSiblings
          (dGet nsmap none) M1 [])
        (SaxEvent.endElementNS (u?, l) qname) =
        Except.ok (rootedState (pushAll s (newPrefixes [] nsmap))
          (some (finishNode
            (mkFrame tag attrib (pushAll s (newPrefixes [] nsmap)).newMappings text ns)))
          [] (pushAll s (newPrefixes [] nsmap)).rootSiblings
          (dGet nsmap none) M1 []) :=
      endElementNS_ok_root _
        (mkFrame tag attrib (pushAll s (newPrefixes [] nsmap)).newMappings text ns)
        (u?, l) qname rfl tagEq
    have hstk5 : ∀ q, stkOf M1 q =
        optCons (dGet (newPrefixes [] nsmap) q) (stkOf s.nsMapping q) :=
      fun q => (hM1 q).trans (pushAll_stkOf (newPrefixes [] nsmap) s hndNew q)
    have hdef5 : (dGet nsmap none : Option String) =
        pushedDefault (newPrefixes [] nsmap) s.defaultNs := by
      rw [hdef2]
      exact (pushedDefault_newPrefixes [] nsmap hwnd hwimpl).symm
    obtain ⟨M2, hp, hM2⟩ := run_pops (newPrefixes [] nsmap)
      (rootedState (pushAll s (newPrefixes [] nsmap))
        (some (finishNode
          (mkFrame tag attrib (pushAll s (newPrefixes [] nsmap)).newMappings text ns)))
        [] (pushAll s (newPrefixes [] nsmap)).rootSiblings
        (dGet nsmap none) M1 [])
      s [] hndNew hstk5 hhead hdef5
    have hpops0 : run (rootedState (pushAll s (newPrefixes [] nsmap))
          (some (finishNode
            (mkFrame tag attrib (pushAll s (newPrefixes [] nsmap)).newMappings text ns)))
          [] (pushAll s (newPrefixes [] nsmap)).rootSiblings
          (dGet nsmap none) M1 [])
        ((newPrefixes [] nsmap).map (fun pu => SaxEvent.endPrefixMapping pu.1)) =
        Except.ok (rootedState (pushAll s (newPrefixes [] nsmap))
          (some (finishNode
            (mkFrame tag attrib (pushAll s (newPrefixes [] nsmap)).newMappings text ns)))
          [] (pushAll s (newPrefixes [] nsmap)).rootSiblings
          s.defaultNs M2 []) := by
      rw [List.append_nil] at hp
      exact hp
    have hpops : ∀ X, run (rootedState (pushAll s (newPrefixes [] nsmap))
          (some (finishNode
            (mkFrame tag attrib (pushAll s (newPrefixes [] nsmap)).newMappings text ns)))
          [] (pushAll s (newPrefixes [] nsmap)).rootSiblings
          (dGet nsmap none) M1 [])
        ((newPrefixes [] nsmap).map (fun pu => SaxEvent.endPrefixMapping pu.1) ++ X) =
        run (rootedState (pushAll s (newPrefixes [] nsmap))
          (some (finishNode
            (mkFrame tag attrib (pushAll s (newPrefixes [] nsmap)).newMappings text ns)))
          [] (pushAll s (newPrefixes [] nsmap)).rootSiblings
          s.defaultNs M2 []) X :=
      run_ok_append _ _ _ hpops0
    have hemit : emitNode [] (Node.element tag attrib text none nsmap epfx children) =
        Except.ok
          ((newPrefixes [] nsmap).map (fun pu => SaxEvent.startPrefixMapping pu.1 pu.2) ++
            SaxEvent.startElementNS (u?, l) qname
                (attrib.map (fun nv => (parseName nv.1, nv.2))) ::
              (charsIfTruthy text ++ childEvs ++
                SaxEvent.endElementNS (u?, l) qname ::
                  ((newPrefixes [] nsmap).map (fun pu => SaxEvent.endPrefixMapping pu.1) ++
                    charsIfTruthy none))) := by
      simp only [emitNode, hA, hnt, hqe, hemitC]
    have hfinal : rootedState (pushAll s (newPrefixes [] nsmap))
        (some (finishNode
          (mkFrame tag attrib (pushAll s (newPrefixes [] nsmap)).newMappings text ns)))
        [] (pushAll s (newPrefixes [] nsmap)).rootSiblings
        s.defaultNs M2 [] =
        { s with hasRoot := true,
                 root := some (finishNode (mkFrame tag attrib
                   (pushAll s (newPrefixes [] nsmap)).newMappings text ns)),
                 stack := [], leading := s.rootSiblings, rootSiblings := [],
                 nsMapping := M2 } := by
      obtain ⟨g1, g2, g3, g4, g5⟩ := pushAll_fields (newPrefixes [] nsmap) s
      simp only [rootedState, g4, hnewm]
    refine ⟨_, finishNode (mkFrame tag attrib
        (pushAll s (newPrefixes [] nsmap)).newMappings text ns), M2,
      hemit, ?_, fun rest2 => ?_⟩
    · exact eqvNode_element_same tag attrib text none
        (pushAll s (newPrefixes [] nsmap)).newMappings nsmap none epfx ns children heqvC
    · simp only [List.append_assoc, List.cons_append]
      rw [run_pushes (newPrefixes [] nsmap) s, run_cons_ok hstart2, htext, hchild2,
        run_cons_ok hendstep, hpops]
      exact congrArg (fun t => run t rest2) hfinal

/-- Builder simulation before the root: processing-instruction events for
tail-free PI nodes are buffered as pending root siblings, in order. -/
theorem simPis : ∀ (ps : List Node) (s : HState),
    (∀ n ∈ ps, ∃ g x, n = Node.pi g x none) → s.hasRoot = false →
    ∃ evs, emitChildren [] ps = .ok evs ∧
      ∀ rest2, run s (evs ++ rest2) =
        run { s with rootSiblings := s.rootSiblings ++ ps } rest2 := by
  intro ps
  induction ps with
  | nil =>
    intro s _ _
    refine ⟨[], rfl, fun rest2 => ?_⟩
    have h : ({ s with rootSiblings := s.rootSiblings ++ [] } : HState) = s := by
      rw [List.append_nil]
    rw [h]
    rfl
  | cons p ps ih =>
    intro s hps hroot
    obtain ⟨g, x, hp⟩ := hps p (List.mem_cons_self p ps)
    subst hp
    obtain ⟨evs2, hemit2, hrun2⟩ := ih
      { s with rootSiblings := s.rootSiblings ++ [Node.pi g x none] }
      (fun n hn => hps n (List.mem_cons_of_mem _ hn)) hroot
    refine ⟨SaxEvent.processingInstruction g x :: evs2, ?_, fun rest2 => ?_⟩
    · simp only [emitChildren, emitNode, charsIfTruthy, hemit2, List.cons_append,
        List.nil_append]
    · rw [List.cons_append,
        run_cons_ok (processingInstruction_buffer s g x hroot), hrun2 rest2]
      show run { s with
          rootSiblings := (s.rootSiblings ++ [Node.pi g x none]) ++ ps } rest2 =
        run { s with rootSiblings := s.rootSiblings ++ (Node.pi g x none :: ps) } rest2
      rw [List.append_assoc, List.singleton_append]

/-- The root elements whose event stream rebuilds the root: a lossless
element (relative to the empty outer namespace map) with no tail.  A
truthy root tail is replayed as a characters event after the root has
closed, where the handler's `_element_stack[-1]` raises IndexError, so it
is excluded. -/
def wfRoot : Node → Bool
  | .element tag attrib text tail nsmap epfx children =>
    wfNode [] (.element tag attrib text tail nsmap epfx children) && tail == none
  | .comment _ _ => false
  | .pi _ _ _ => false

/-- The full round trip for a document made of tail-free leading PIs and a
lossless root element: saxify it, rebuild with a fresh handler, and the
result is equivalent. -/
theorem round_trip_wf_aux (ps : List Node) (root : Node)
    (hps : ∀ n ∈ ps, ∃ g x, n = Node.pi g x none)
    (hroot : wfRoot root = true) :
    roundTripOk ⟨ps, root, []⟩ = true := by
  rcases root with ⟨tag, attrib, text, tail, nsmap, epfx, children⟩ | ⟨x, tl⟩ | ⟨g, x, tl⟩
  · simp only [wfRoot, Bool.and_eq_true, beq_iff_eq] at hroot
    obtain ⟨hwfe, htl⟩ := hroot
    subst htl
    have hlead : (ps.reverse.takeWhile isPiNode).reverse = ps := by
      have hall : ∀ n ∈ ps.reverse, isPiNode n = true := by
        intro n hn
        obtain ⟨g2, x2, he⟩ := hps n (List.mem_reverse.mp hn)
        rw [he]
        rfl
      rw [takeWhile_all isPiNode ps.reverse hall, List.reverse_reverse]
    obtain ⟨pre, hemitPis, hrunPis⟩ := simPis ps initState hps rfl
    obtain ⟨mid, n, M, hemitR, heqvR, hrunR⟩ := simRoot tag attrib text nsmap epfx children
      { initState with rootSiblings := initState.rootSiblings ++ ps } hwfe rfl rfl rfl rfl
    have hsax : ElementTreeProducer.saxifyDoc
        ⟨ps, Node.element tag attrib text none nsmap epfx children, []⟩ =
        .ok (SaxEvent.startDocument :: (pre ++ mid ++ [] ++ [SaxEvent.endDocument])) := by
      simp only [saxifyDoc, hlead, hemitPis, hemitR, List.takeWhile_nil, emitChildren]
    have hrun : run initState (SaxEvent.startDocument ::
        (pre ++ mid ++ [] ++ [SaxEvent.endDocument])) =
        .ok { { initState with rootSiblings := initState.rootSiblings ++ ps } with
          hasRoot := true, root := some n, stack := [],
          leading := ({ initState with
            rootSiblings := initState.rootSiblings ++ ps } : HState).rootSiblings,
          rootSiblings := [], nsMapping := M } := by
      rw [run_cons_ok (rfl : step initState SaxEvent.startDocument = Except.ok initState)]
      rw [List.append_nil, List.append_assoc, hrunPis (mid ++ [SaxEvent.endDocument]),
        hrunR [SaxEvent.endDocument]]
      rfl
    simp only [roundTripOk, roundTrip, hsax, hrun]
    simp only [initState, eqvDoc, eqvList, List.nil_append, Bool.and_true,
      Bool.and_eq_true]
    exact ⟨eqvList_self_of_pis ps hps, heqvR⟩
  · exact absurd hroot (by simp [wfRoot])
  · exact absurd hroot (by simp [wfRoot])

/-- C1 counterexample document root: the root carries a default-namespace
binding while its child element has a namespace-less tag. -/
def c1cx : Node :=
  .element (clark "u" "r") [] none none [(none, "u")] none
    [.element "c" [] none none [(none, "u")] none []]

set_option maxHeartbeats 4000000 in
/-- C1 as stated is false on the code: `noMixedAmbiguity` (no namespace map
binding the default prefix and a non-default prefix to the same URI) is
not sufficient for the round trip.  A namespace-less child below a
default-namespace binding satisfies it, yet the rebuilt child tag is
resolved into the default namespace raised by the parent, so the rebuilt
tree is not equivalent. -/
theorem c1_counterexample :
    noMixedAmbiguity c1cx = true ∧ roundTripOk ⟨[], c1cx, []⟩ = false :=
  ⟨rfl, rfl⟩

/-- C1 (amended): for every root element that is lossless — its tag and
attribute names parse and resolve inside its own namespace map, namespace
maps have distinct keys and never drop a default binding visible outside,
a namespace-less tag only appears where no default namespace is visible,
no comments, no empty-string text or tail, and the root has no tail —
feeding the events of `saxify` into a fresh handler rebuilds an
equivalent tree: same (URI, localname) tags, same attribute dicts, same
text and tail, same child order. -/
theorem c1_round_trip_wf (root : Node) (h : wfRoot root = true) :
    roundTripOk ⟨[], root, []⟩ = true :=
  round_trip_wf_aux [] root (fun n hn => absurd hn (List.not_mem_nil n)) h

/-- C1 witness root: a namespaced root with plain and namespaced
attributes, text, a prefix binding, and a PI child with a tail. -/
def rt1 : Node :=
  .element (clark "u" "r") [("a", "v"), (clark "u" "b", "w")] (some "x") none
    [(some "p", "u")] (some "p") [.pi "t" (some "d") (some "z")]

set_option maxHeartbeats 4000000 in
/-- Witness for the amended C1 at a concrete lossless root. -/
theorem c1_witness : wfRoot rt1 = true ∧ roundTripOk ⟨[], rt1, []⟩ = true :=
  ⟨rfl, c1_round_trip_wf rt1 rfl⟩

/-- C8 counterexample document: a trailing processing instruction after a
plain root. -/
def d8 : Doc := ⟨[], .element "r" [] none none [] none [], [.pi "z" none none]⟩

set_option maxHeartbeats 4000000 in
/-- C8 as stated is false on the code: the producer does emit the trailing
PI after the root's end event, but the handler's `processingInstruction`
then runs with a root already built and an empty open-element stack, so
`SubElement(_element_stack[-1], ...)` raises IndexError and the rebuild
fails — trailing PI placement is not preserved. -/
theorem c8_counterexample :
    ElementTreeProducer.saxifyDoc d8 =
      .ok [.startDocument,
           .startElementNS (none, "r") "r" [],
           .endElementNS (none, "r") "r",
           .processingInstruction "z" none,
           .endDocument] ∧
    roundTrip d8 = none :=
  ⟨rfl, rfl⟩

/-- C8 (amended): leading root-level processing instructions with no tail
are preserved by the round trip — the producer discovers them walking
backward and replays them forward, the builder buffers them until the
root arrives and attaches them in buffered order — so for a lossless
tail-free root the whole document rebuilds equivalently, leading PIs in
original order.  Trailing PIs are excluded: they crash the rebuild (see
the counterexample). -/
theorem c8_leading_pis_round_trip (ps : List Node) (root : Node)
    (hps : ∀ n ∈ ps, ∃ g x, n = Node.pi g x none)
    (hroot : wfRoot root = true) :
    roundTripOk ⟨ps, root, []⟩ = true :=
  round_trip_wf_aux ps root hps hroot

/-- C8 witness leading siblings: two tail-free PIs. -/
def ps8 : List Node := [.pi "x" (some "1") none, .pi "y" none none]

/-- C8 witness root. -/
def rt8 : Node := .element (clark "u" "r") [] (some "t") none [(none, "u")] none []

set_option maxHeartbeats 4000000 in
/-- Witness for the amended C8: the two leading PIs round-trip in order
before the root. -/
theorem c8_witness :
    (∀ n ∈ ps8, ∃ g x, n = Node.pi g x none) ∧ wfRoot rt8 = true ∧
      roundTripOk ⟨ps8, rt8, []⟩ = true := by
  have hps : ∀ n ∈ ps8, ∃ g x, n = Node.pi g x none := by
    intro n hn
    simp only [ps8, List.mem_cons, List.not_mem_nil, or_false] at hn
    rcases hn with h | h
    · exact ⟨"x", some "1", h⟩
    · exact ⟨"y", none, h⟩
  exact ⟨hps, rfl, c8_leading_pis_round_trip ps8 rt8 hps rfl⟩

end RoundTripProof

end LxmlSax
